import Mathlib

/-!
# sourcemap-bundle-analyzer: the byte attribution and the path grouping of `index.js`

A shallow embedding of `src/index.js`.  The program walks the `.js` files of a directory, attributes
the bytes of every token of a minified file to the original source named by the sourcemap
(`bytesPerFile`), turns that flat map into a tree of groups (`addToGroupInfo`), finalizes the tree
(`getGroupData`) and pushes one entry per file to `webpackViewerData`.

Conventions of the embedding:

* a JavaScript `Map` is an association list in insertion order; `set` on a present key replaces the
  value in place and `set` on an absent key appends, as `Map.prototype.set` does;
* numbers are `Int`: every number of the program is a sum of token spans, exact in a double;
* `undefined` is `none`;
* what the program takes from its libraries and its environment is a parameter:
  `localeCompare`, `extname`, the resolver `originalPositionFor`, the token stream, the file system.
-/

namespace SourcemapBundleAnalyzer

/-! ## Strings -/

/-- The pieces of `s.split(/\//g)`, on the characters of `s`: the array is never empty, and a
slash at either end gives an empty piece. -/
def splitChars : List Char → List (List Char)
  | [] => [[]]
  | c :: cs =>
    if c = '/' then [] :: splitChars cs
    else
      match splitChars cs with
      | [] => [[c]]
      | part :: parts => (c :: part) :: parts

/-- `remainingPath.split(/\//g)` (line 117). -/
def split (s : String) : List String :=
  (splitChars s.data).map String.mk

/-- `parts.join('/')` (lines 120 and 143); the empty array joins to the empty string. -/
def join : List String → String
  | [] => ""
  | [p] => p
  | p :: q :: ps => p ++ "/" ++ join (q :: ps)

/-- The characters left by `replace(/^(\.\.\/)+/, '')`: the regular expression is anchored at the
start and its group is repeated greedily, so the whole leading run of `../` is removed. -/
def stripParentChars : List Char → List Char
  | '.' :: '.' :: '/' :: rest => stripParentChars rest
  | cs => cs

/-- `filename = filepath.replace(/^(\.\.\/)+/, '')` (line 106). -/
def filename (filepath : String) : String :=
  String.mk (stripParentChars filepath.data)

/-- `k` copies of `../`. -/
def parentRun : Nat → String
  | 0 => ""
  | k + 1 => "../" ++ parentRun k

/-- Whether `pat` starts the text. -/
def startsWithChars : List Char → List Char → Bool
  | [], _ => true
  | _ :: _, [] => false
  | p :: ps, c :: cs => p = c && startsWithChars ps cs

/-- Whether `pat` occurs in the text at some index. -/
def includesChars (pat : List Char) : List Char → Bool
  | [] => startsWithChars pat []
  | c :: cs => startsWithChars pat (c :: cs) || includesChars pat cs

/-- `filepath.indexOf(pathPart) >= 0` for a string `pathPart` (line 71). -/
def indexOfGe0 (filepath pathPart : String) : Bool :=
  includesChars pathPart.data filepath.data

/-! ## The byte tally (`bytesPerFile`) -/

/-- The `Map` from original source path to bytes, in insertion order. -/
abbrev ByteTally := List (String × Int)

/-- `bytesPerFile.get(key)`. -/
def mapGet : ByteTally → String → Option Int
  | [], _ => none
  | (k, v) :: rest, key => if k = key then some v else mapGet rest key

/-- `bytesPerFile.set(key, value)`. -/
def mapSet : ByteTally → String → Int → ByteTally
  | [], key, value => [(key, value)]
  | (k, v) :: rest, key, value =>
    if k = key then (k, value) :: rest else (k, v) :: mapSet rest key value

/-- The sum of the values of a tally. -/
def tallySum (bytesPerFile : ByteTally) : Int :=
  (bytesPerFile.map Prod.snd).sum

/-- A position of the minified file (`token.loc.start`). -/
structure Position where
  line : Nat
  column : Nat
deriving DecidableEq, Repr

/-- What `originalPositionFor` returns, as far as the program reads it: `source` is a string or
`null`. -/
structure OriginalInfo where
  source : Option String
deriving DecidableEq, Repr

/-- A token of `acorn.tokenizer`: the offsets `start` and `end`, and `loc.start`. -/
structure Token where
  start : Int
  «end» : Int
  locStart : Position
deriving DecidableEq, Repr

/-- The sourcemap resolver `sourceMapConsumer.originalPositionFor`. -/
abbrev Resolver := Position → Option OriginalInfo

/-- The key of a token (line 97):
`originalInfo ? originalInfo.source || '**unknown**' : '**unknown**'`.  A `null` source and the empty
string are both falsy. -/
def originalFilepath (originalInfo : Option OriginalInfo) : String :=
  match originalInfo with
  | none => "**unknown**"
  | some info =>
    match info.source with
    | none => "**unknown**"
    | some source => if source = "" then "**unknown**" else source

/-- `token.end - token.start`. -/
def Token.span (token : Token) : Int :=
  token.«end» - token.start

/-- The body of the token loop (lines 96-100).  `bytesPerFile.get(k) || 0` is the value, or `0` when
there is none. -/
def tokenStep (originalPositionFor : Resolver) (bytesPerFile : ByteTally) (token : Token) :
    ByteTally :=
  let originalFilepath := originalFilepath (originalPositionFor token.locStart)
  let existingBytes := (mapGet bytesPerFile originalFilepath).getD 0
  mapSet bytesPerFile originalFilepath (existingBytes + token.span)

/-- The token loop of one file (lines 95-101), from the tally it finds. -/
def tokenPass (originalPositionFor : Resolver) (tokens : List Token) (bytesPerFile : ByteTally) :
    ByteTally :=
  tokens.foldl (tokenStep originalPositionFor) bytesPerFile

/-! ## `fileInfo` -/

/-- An element of `fileInfo` (lines 107-110). -/
structure FileInfo where
  file : String
  bytes : Int
deriving DecidableEq, Repr

/-- The array `fileInfo` before it is sorted (lines 104-111): one element per entry of the tally, in
the order of the `Map`. -/
def fileInfoOf (bytesPerFile : ByteTally) : List FileInfo :=
  bytesPerFile.map fun entry => { file := filename entry.1, bytes := entry.2 }

/-- Insertion of `a` before the first element it does not sort after. -/
def insertSorted (localeCompare : String → String → Int) (a : FileInfo) :
    List FileInfo → List FileInfo
  | [] => [a]
  | b :: rest =>
    if localeCompare a.file b.file ≤ 0 then a :: b :: rest
    else b :: insertSorted localeCompare a rest

/-- `fileInfo.sort((a, b) => a.file.localeCompare(b.file))` (line 112).  `Array.prototype.sort` is
stable, and for a consistent comparator every stable sort returns the array of this insertion
sort. -/
def sort (localeCompare : String → String → Int) : List FileInfo → List FileInfo
  | [] => []
  | a :: rest => insertSorted localeCompare a (sort localeCompare rest)

/-- A comparison of strings by code points, one consistent comparator among those `localeCompare`
may be. -/
def compareChars : List Char → List Char → Int
  | [], [] => 0
  | [], _ :: _ => -1
  | _ :: _, [] => 1
  | a :: as, b :: bs =>
    if a.toNat < b.toNat then -1
    else if b.toNat < a.toNat then 1
    else compareChars as bs

/-- The comparator `compareChars` on strings. -/
def codePointCompare (a b : String) : Int :=
  compareChars a.data b.data

/-! ## The group tree under construction -/

mutual
/-- A value of a group `Map` (lines 125-131 and 135-140): `statSize` is absent on a node created for
a directory. -/
inductive GroupInfo where
  | mk (label : String) (path : String) (statSize : Option Int) (groups : GroupMap)
/-- A `Map` of groups, in insertion order. -/
inductive GroupMap where
  | nil
  | cons (key : String) (value : GroupInfo) (rest : GroupMap)
end

/-- The field `label`. -/
def GroupInfo.label : GroupInfo → String
  | .mk label _ _ _ => label

/-- The field `path`. -/
def GroupInfo.path : GroupInfo → String
  | .mk _ path _ _ => path

/-- The field `statSize`. -/
def GroupInfo.statSize : GroupInfo → Option Int
  | .mk _ _ statSize _ => statSize

/-- The field `groups`. -/
def GroupInfo.groups : GroupInfo → GroupMap
  | .mk _ _ _ groups => groups

/-- The node after its `groups` were changed in place. -/
def GroupInfo.setGroups : GroupInfo → GroupMap → GroupInfo
  | .mk label path statSize _, groups => .mk label path statSize groups

/-- `groupMap.get(key)`. -/
def GroupMap.get : GroupMap → String → Option GroupInfo
  | .nil, _ => none
  | .cons k v rest, key => if k = key then some v else rest.get key

/-- `groupMap.set(key, value)`. -/
def GroupMap.set : GroupMap → String → GroupInfo → GroupMap
  | .nil, key, value => .cons key value .nil
  | .cons k v rest, key, value =>
    if k = key then .cons k value rest else .cons k v (rest.set key value)

/-- `groupMap.size`. -/
def GroupMap.size : GroupMap → Nat
  | .nil => 0
  | .cons _ _ rest => rest.size + 1

/-- The recursion of `addToGroupInfo` (lines 115-145) with a bound on its depth; the bound is spent by
the recursive calls of lines 120 and 143, and the map is returned as it is when none is left.  In the
last branch the node found or created under `prefixPath` stays where it is in `groupMap` (or is
appended) and the recursive call changes its `groups`. -/
def addToGroupInfoFuel : Nat → Option String → String → Int → GroupMap → GroupMap
  | 0, _, _, _, groupMap => groupMap
  | fuel + 1, prefixPath, remainingPath, size, groupMap =>
    let fullpath := prefixPath.getD "" ++ remainingPath
    let pathParts := split remainingPath
    match prefixPath with
    | none =>
      addToGroupInfoFuel fuel (some (pathParts.headD "" ++ "/")) (join pathParts.tail) size groupMap
    | some prefixPath =>
      if pathParts.length = 1 then
        groupMap.set fullpath (.mk remainingPath fullpath (some size) .nil)
      else
        let groupInfo := (groupMap.get prefixPath).getD (.mk prefixPath prefixPath none .nil)
        groupMap.set prefixPath
          (groupInfo.setGroups
            (addToGroupInfoFuel fuel (some (prefixPath ++ pathParts.headD "" ++ "/"))
              (join pathParts.tail) size groupInfo.groups))

/-- `addToGroupInfo(prefixPath, remainingPath, size, groupMap)`: every recursive call but the first
removes a piece and a slash from `remainingPath`, so `remainingPath.length + 2` calls are enough. -/
def addToGroupInfo (prefixPath : Option String) (remainingPath : String) (size : Int)
    (groupMap : GroupMap) : GroupMap :=
  addToGroupInfoFuel (remainingPath.length + 2) prefixPath remainingPath size groupMap

/-- `fullGroupInfo` after the `forEach` of lines 147-149. -/
def fullGroupInfo (fileInfo : List FileInfo) : GroupMap :=
  fileInfo.foldl (fun groupMap info => addToGroupInfo none info.file info.bytes groupMap) .nil

/-! ## The finalized forest -/

/-- A node as `getGroupData` returns it: `groups` is `undefined` on a leaf and an array
otherwise. -/
inductive GroupNode where
  | mk (label : String) (path : String) (statSize : Option Int)
      (groups : Option (List GroupNode))
deriving Repr

/-- The field `label`. -/
def GroupNode.label : GroupNode → String
  | .mk label _ _ _ => label

/-- The field `path`. -/
def GroupNode.path : GroupNode → String
  | .mk _ path _ _ => path

/-- The field `statSize`. -/
def GroupNode.statSize : GroupNode → Option Int
  | .mk _ _ statSize _ => statSize

/-- The field `groups`. -/
def GroupNode.groups : GroupNode → Option (List GroupNode)
  | .mk _ _ _ groups => groups

/-- `groups.reduce((sum, currValue) => sum + (currValue.statSize || 0), 0)` (line 166). -/
def sumStatSize (groups : List GroupNode) : Int :=
  groups.foldl (fun sum currValue => sum + currValue.statSize.getD 0) 0

/-- The node returned when `value` is neither a leaf nor collapsed (lines 161-169): its `groups`
are the finalized children and a `statSize` that is `undefined` becomes their sum. -/
def withGroups (label path : String) (statSize : Option Int) (groups : List GroupNode) :
    GroupNode :=
  .mk label path
    (match statSize with
     | none => some (sumStatSize groups)
     | some size => some size)
    (some groups)

mutual
/-- The callback of `groupArray.map` in `getGroupData` (lines 153-170).  With one child,
`getGroupData(value.groups)` is the one-element array of that child finalized, and its element `[0]`
is what the collapsing branch of line 159 returns. -/
def finalizeValue : GroupInfo → GroupNode
  | .mk label path statSize .nil => .mk label path statSize none
  | .mk label path statSize (.cons _ child .nil) =>
    if statSize = some 0 then finalizeValue child
    else withGroups label path statSize [finalizeValue child]
  | .mk label path statSize (.cons _ child (.cons key value rest)) =>
    withGroups label path statSize (finalizeValue child :: getGroupData (.cons key value rest))
/-- `getGroupData(fullGroupInfo)` (lines 151-171). -/
def getGroupData : GroupMap → List GroupNode
  | .nil => []
  | .cons _ value rest => finalizeValue value :: getGroupData rest
end

/-- The forest of one file from the tally it is built from (lines 104-171): strip, sort, insert,
finalize. -/
def grouper (localeCompare : String → String → Int) (bytesPerFile : ByteTally) : List GroupNode :=
  getGroupData (fullGroupInfo (sort localeCompare (fileInfoOf bytesPerFile)))

mutual
/-- A node and the nodes below it, at any depth. -/
def GroupNode.subnodes : GroupNode → List GroupNode
  | .mk label path statSize none => [.mk label path statSize none]
  | .mk label path statSize (some groups) =>
    .mk label path statSize (some groups) :: subnodesList groups
/-- The nodes of a forest, at any depth. -/
def subnodesList : List GroupNode → List GroupNode
  | [] => []
  | node :: rest => node.subnodes ++ subnodesList rest
end

/-- The sum of the `statSize` of the root nodes of a forest. -/
def rootSum (forest : List GroupNode) : Int :=
  (forest.map fun node => node.statSize.getD 0).sum

/-! ## The loop over the files of the directory -/

/-- An element of `argv._`: `minimist` keeps a positional argument as a string unless it reads as a
number, which it converts with `Number`.  Of the numbers, the natural numbers below `2 ^ 53` are
modelled: a double holds each of them exactly and `String` writes it as its decimal digits. -/
inductive Arg where
  | str (s : String)
  | num (n : Fin 9007199254740992)
deriving DecidableEq, Repr

/-- The string `indexOf` searches for: its argument converted to a string, for a number below
`2 ^ 53` its decimal digits. -/
def Arg.text : Arg → String
  | .str s => s
  | .num n => toString n.val

/-- Whether the value is truthy: the empty string and `0` are not. -/
def Arg.truthy : Arg → Bool
  | .str s => s ≠ ""
  | .num n => n.val ≠ 0

/-- `argv._.find((pathPart) => filepath.indexOf(pathPart) >= 0)`: the first element found, or
`undefined`. -/
def findPathPart (positionals : List Arg) (filepath : String) : Option Arg :=
  positionals.find? fun pathPart => indexOfGe0 filepath pathPart.text

/-- Whether the loop body goes past lines 67-73 for `filepath`.  Line 71 negates what `find`
returned: `undefined` and a falsy element both make the body `continue`. -/
def passesFilter (extname : String → String) (positionals : List Arg) (filepath : String) : Bool :=
  if extname filepath ≠ ".js" then false
  else if positionals.length > 0 ∧ ¬ ((findPathPart positionals filepath).map Arg.truthy).getD false
  then false
  else true

/-- A name returned by `readdir`, with what the file system and the libraries answer for it. -/
structure CandidateFile where
  /-- The name of the file. -/
  filepath : String
  /-- Whether `fs.access` of the `.map` file succeeds (line 76). -/
  mapAccess : Bool
  /-- Whether the two `readFile` and the `stat` of lines 85-87 succeed. -/
  readOk : Bool
  /-- `fileStats.size`. -/
  size : Int
  /-- The resolver of the sourcemap, or `none` when `SourceMapConsumer.with` rejects. -/
  consumer : Option Resolver
  /-- The tokens of `acorn.tokenizer(outContents, tokenizerOptions)`. -/
  tokens : List Token

/-- An element of `webpackViewerData` (lines 172-180); `isAsset`, `parsedSize` and `gzipSize` are
constants. -/
structure BundleEntry where
  label : String
  path : String
  statSize : Int
  groups : List GroupNode
deriving Repr

/-- What the run holds between two files: the `Map` of line 45, the array of line 32 and what was
written to the two streams. -/
structure RunState where
  bytesPerFile : ByteTally
  webpackViewerData : List BundleEntry
  stdout : List String
  stderr : List String

/-- The state at the start of a run. -/
def RunState.init : RunState :=
  { bytesPerFile := [], webpackViewerData := [], stdout := [], stderr := [] }

/-- How the body of the loop ends for one file: it reaches the next file, or the promise of
`SourceMapConsumer.with` rejects, which nothing in the program catches. -/
inductive Outcome where
  | completed (state : RunState)
  | rejected (state : RunState)

/-- The state carried by an outcome. -/
def Outcome.state : Outcome → RunState
  | .completed state => state
  | .rejected state => state

/-- The body of the loop of lines 66-181 for one file. -/
def processFile (extname : String → String) (localeCompare : String → String → Int)
    (dirpath : String) (positionals : List Arg) (state : RunState) (file : CandidateFile) :
    Outcome :=
  if ¬ passesFilter extname positionals file.filepath then .completed state
  else if ¬ file.mapAccess then
    .completed { state with
      stderr := state.stderr ++
        ["Unable to read sourcemap file: " ++ dirpath ++ file.filepath ++ ".map\n"] }
  else if ¬ file.readOk then
    .completed { state with
      stderr := state.stderr ++ ["Unable to read file: " ++ dirpath ++ file.filepath ++ "\n"] }
  else
    let state := { state with
      stdout := state.stdout ++ ["Adding " ++ dirpath ++ file.filepath ++ "\n"] }
    match file.consumer with
    | none => .rejected state
    | some originalPositionFor =>
      let bytesPerFile := tokenPass originalPositionFor file.tokens state.bytesPerFile
      .completed { state with
        bytesPerFile := bytesPerFile
        webpackViewerData := state.webpackViewerData ++
          [{ label := file.filepath, path := file.filepath, statSize := file.size,
             groups := grouper localeCompare bytesPerFile }] }

/-- The loop of lines 66-181 from a state: it stops at the first rejection. -/
def runFrom (extname : String → String) (localeCompare : String → String → Int)
    (dirpath : String) (positionals : List Arg) : RunState → List CandidateFile → Outcome
  | state, [] => .completed state
  | state, file :: files =>
    match processFile extname localeCompare dirpath positionals state file with
    | .completed next => runFrom extname localeCompare dirpath positionals next files
    | .rejected next => .rejected next

/-- A run over the files of the directory. -/
def run (extname : String → String) (localeCompare : String → String → Int)
    (dirpath : String) (positionals : List Arg) (files : List CandidateFile) : Outcome :=
  runFrom extname localeCompare dirpath positionals RunState.init files


/-! ## Stand-ins for the environment, used where a statement is evaluated -/

/-- The part of the name from its last dot on, when the name has a dot. -/
def lastDotSuffix : List Char → Option (List Char)
  | [] => none
  | c :: cs =>
    match lastDotSuffix cs with
    | some suffix => some suffix
    | none => if c = '.' then some (c :: cs) else none

/-- The `path.extname` of Node on a name without a separator: from the last dot to the end, and the
empty string when there is no dot, when the only dot is the first character, or for `..`. -/
def posixExtname (name : String) : String :=
  match name.data with
  | [] => ""
  | _ :: cs =>
    if name = ".." then ""
    else
      match lastDotSuffix cs with
      | some suffix => String.mk suffix
      | none => ""

/-- A resolver that maps every position to `source`. -/
def constResolver (source : String) : Resolver :=
  fun _ => some { source := some source }

/-- A readable file with a sourcemap, of one token of `span` bytes that resolves to `source`. -/
def chunk (filepath : String) (size : Int) (source : String) (span : Int) : CandidateFile :=
  { filepath := filepath, mapAccess := true, readOk := true, size := size,
    consumer := some (constResolver source),
    tokens := [{ start := 0, «end» := span, locStart := { line := 1, column := 0 } }] }

/-! ## Notions the statements use -/

/-- Whether the start of `token` resolves to the key `p`, a token without original source
resolving to the sentinel. -/
def resolvesTo (originalPositionFor : Resolver) (p : String) (token : Token) : Bool :=
  originalFilepath (originalPositionFor token.locStart) = p

/-- The sum of the spans of the tokens. -/
def spanSum (tokens : List Token) : Int :=
  (tokens.map Token.span).sum

mutual
/-- Every node of the tree whose label is its path has no recorded size. -/
def GroupInfo.DirUnsized : GroupInfo → Prop
  | .mk label path statSize groups => (label = path → statSize = none) ∧ groups.DirUnsized
/-- Every node at or below the map whose label is its path has no recorded size. -/
def GroupMap.DirUnsized : GroupMap → Prop
  | .nil => True
  | .cons _ value rest => value.DirUnsized ∧ rest.DirUnsized
end

/-- A finalized node that has children and whose label is its path has the sum of the `statSize`
of its children as `statSize`. -/
def GroupNode.DirSum (node : GroupNode) : Prop :=
  ∀ groups, node.groups = some groups → node.label = node.path →
    node.statSize = some (sumStatSize groups)

/-! ## Notions of the statements on the loop and on the leaves -/

/-- The values of a group map, in the order of the `Map`. -/
def GroupMap.values : GroupMap → List GroupInfo
  | .nil => []
  | .cons _ value rest => value :: rest.values

/-- Whether a finalized node has children. -/
def GroupNode.hasChildren : GroupNode → Bool
  | .mk _ _ _ (some (_ :: _)) => true
  | .mk _ _ _ _ => false

/-- The leaves of a forest: its nodes without children, at any depth. -/
def leaves (forest : List GroupNode) : List GroupNode :=
  (subnodesList forest).filter fun node => ! node.hasChildren

/-- The path, the label and the `statSize` of a node. -/
def GroupNode.data (node : GroupNode) : String × String × Option Int :=
  (node.path, node.label, node.statSize)

/-- The last piece of a path. -/
def lastSegment (s : String) : String :=
  (split s).getLastD ""

/-- The sum of the values of the keys of the tally that strip to `key`. -/
def keySum (bytesPerFile : ByteTally) (key : String) : Int :=
  ((bytesPerFile.filter fun entry => filename entry.1 = key).map Prod.snd).sum

/-- The sibling lists of a forest: the root list and the `groups` of every node. -/
def siblingLists (forest : List GroupNode) : List (List GroupNode) :=
  forest :: (subnodesList forest).filterMap GroupNode.groups

/-- In every sibling list the leaves are in ascending order of their path. -/
def LeavesAscending (localeCompare : String → String → Int) (forest : List GroupNode) : Prop :=
  ∀ siblings ∈ siblingLists forest,
    (siblings.filter fun node => ! node.hasChildren).Pairwise
      fun a b => localeCompare a.path b.path ≤ 0

/-- A readable file whose sourcemap `SourceMapConsumer.with` rejects. -/
def unparsable (filepath : String) (size : Int) : CandidateFile :=
  { filepath := filepath, mapAccess := true, readOk := true, size := size,
    consumer := none, tokens := [] }

/-- The warning of line 78 for a file. -/
def mapWarning (dirpath : String) (file : CandidateFile) : String :=
  "Unable to read sourcemap file: " ++ dirpath ++ file.filepath ++ ".map\n"

/-- Two states with the same tally, the same collection and the same standard output, the error
stream of the first being that of the second with the line `warning` added at one place. -/
def RunState.SameBut (warning : String) (s t : RunState) : Prop :=
  s.bytesPerFile = t.bytesPerFile ∧ s.webpackViewerData = t.webpackViewerData ∧
    s.stdout = t.stdout ∧ ∃ pre post, s.stderr = pre ++ warning :: post ∧ t.stderr = pre ++ post

/-- Two outcomes of the same kind whose states differ by the line `warning` only. -/
def Outcome.SameBut (warning : String) : Outcome → Outcome → Prop
  | .completed s, .completed t => s.SameBut warning t
  | .rejected s, .rejected t => s.SameBut warning t
  | _, _ => False

/-- A `.js` file in the directory without a `.map` file beside it. -/
def withoutMap (filepath : String) : CandidateFile :=
  { filepath := filepath, mapAccess := false, readOk := true, size := 0,
    consumer := none, tokens := [] }

/-- The path ends with a slash. -/
def EndsWithSlash (s : String) : Prop :=
  ∃ q, s = q ++ "/"

mutual
/-- The path, label and `statSize` of the nodes without children at or below a node of the tree
under construction. -/
def GroupInfo.leafData : GroupInfo → List (String × String × Option Int)
  | .mk label path statSize .nil => [(path, label, statSize)]
  | .mk _ _ _ (.cons key value rest) => GroupMap.leafData (.cons key value rest)
/-- The path, label and `statSize` of the nodes without children below a group map. -/
def GroupMap.leafData : GroupMap → List (String × String × Option Int)
  | .nil => []
  | .cons _ value rest => value.leafData ++ rest.leafData
end

mutual
/-- The shape of a node stored under `key` when no file name ends with a slash: a node without
children has its key as path, and the key does not end with a slash; a node with children has a
key that ends with a slash. -/
def GroupInfo.Tidy : GroupInfo → String → Prop
  | .mk _ path _ .nil, key => path = key ∧ ¬ EndsWithSlash key
  | .mk _ _ _ (.cons k value rest), key => EndsWithSlash key ∧ GroupMap.Tidy (.cons k value rest)
/-- Every node at or below the map has the shape `GroupInfo.Tidy`. -/
def GroupMap.Tidy : GroupMap → Prop
  | .nil => True
  | .cons key value rest => value.Tidy key ∧ rest.Tidy
end

/-! ## Lemmas on strings and on the bound of `addToGroupInfo` -/

theorem splitChars_ne_nil (cs : List Char) : splitChars cs ≠ [] := by
  cases cs with
  | nil => simp [splitChars]
  | cons c cs =>
    unfold splitChars
    split
    · simp
    · split <;> simp

theorem split_ne_nil (s : String) : split s ≠ [] := by
  simp [split, splitChars_ne_nil]

theorem join_cons_char (c : Char) (part : List Char) (parts : List String) :
    join (String.mk (c :: part) :: parts) = String.mk [c] ++ join (String.mk part :: parts) := by
  cases parts with
  | nil => simp only [join]; rfl
  | cons q ps =>
    simp only [join]
    apply String.ext
    simp [String.data_append]

theorem join_splitChars (cs : List Char) :
    join ((splitChars cs).map String.mk) = String.mk cs := by
  induction cs with
  | nil => rfl
  | cons c cs ih =>
    unfold splitChars
    split
    · rename_i hc
      subst hc
      cases hs : splitChars cs with
      | nil => exact absurd hs (splitChars_ne_nil cs)
      | cons q ps =>
        rw [hs] at ih
        simp only [List.map_cons, join] at ih ⊢
        rw [ih]
        rfl
    · cases hs : splitChars cs with
      | nil => exact absurd hs (splitChars_ne_nil cs)
      | cons q ps =>
        rw [hs] at ih
        simp only [List.map_cons] at ih ⊢
        rw [join_cons_char, ih]
        rfl

/-- Joining the pieces of a string with slashes gives the string back. -/
theorem join_split (s : String) : join (split s) = s :=
  join_splitChars s.data

theorem length_join_tail_le (s : String) : (join (split s).tail).length ≤ s.length := by
  have h := join_split s
  cases hs : split s with
  | nil => exact absurd hs (split_ne_nil s)
  | cons p ps =>
    rw [hs] at h
    cases ps with
    | nil => simp [join]
    | cons q qs =>
      simp only [join] at h
      have hl := congrArg String.length h
      simp only [String.length_append] at hl
      simp only [List.tail_cons]
      omega

theorem length_join_tail_lt (s : String) (h1 : (split s).length ≠ 1) :
    (join (split s).tail).length < s.length := by
  have h := join_split s
  cases hs : split s with
  | nil => exact absurd hs (split_ne_nil s)
  | cons p ps =>
    rw [hs] at h h1
    cases ps with
    | nil => simp at h1
    | cons q qs =>
      simp only [join] at h
      have hl := congrArg String.length h
      simp only [String.length_append] at hl
      have h1 : "/".length = 1 := rfl
      simp only [List.tail_cons]
      omega

/-- With a prefix, any two bounds above the length of `remainingPath` give the same map. -/
theorem addToGroupInfoFuel_some_eq : ∀ (fuel fuel2 : Nat) (prefixPath remainingPath : String)
    (size : Int) (groupMap : GroupMap),
    remainingPath.length < fuel → remainingPath.length < fuel2 →
    addToGroupInfoFuel fuel (some prefixPath) remainingPath size groupMap =
      addToGroupInfoFuel fuel2 (some prefixPath) remainingPath size groupMap
  | 0, _, _, _, _, _, h, _ => absurd h (Nat.not_lt_zero _)
  | _ + 1, 0, _, _, _, _, _, h => absurd h (Nat.not_lt_zero _)
  | fuel + 1, fuel2 + 1, prefixPath, remainingPath, size, groupMap, h, h2 => by
    simp only [addToGroupInfoFuel]
    split
    · rfl
    · rename_i hlen
      have hlt := length_join_tail_lt remainingPath hlen
      rw [addToGroupInfoFuel_some_eq fuel fuel2 _ _ _ _ (by omega) (by omega)]

/-- The bound of `addToGroupInfo` is enough: a larger one gives the same map. -/
theorem addToGroupInfoFuel_eq_addToGroupInfo (fuel : Nat) (prefixPath : Option String)
    (remainingPath : String) (size : Int) (groupMap : GroupMap)
    (h : remainingPath.length + 2 ≤ fuel) :
    addToGroupInfoFuel fuel prefixPath remainingPath size groupMap =
      addToGroupInfo prefixPath remainingPath size groupMap := by
  unfold addToGroupInfo
  cases prefixPath with
  | some p => exact addToGroupInfoFuel_some_eq _ _ _ _ _ _ (by omega) (by omega)
  | none =>
    obtain ⟨f, rfl⟩ : ∃ f, fuel = f + 1 := ⟨fuel - 1, by omega⟩
    simp only [addToGroupInfoFuel]
    have hle := length_join_tail_le remainingPath
    exact addToGroupInfoFuel_some_eq f (remainingPath.length + 1) _ _ _ _ (by omega) (by omega)

/-! ## Lemmas on the tally and on the tree -/

theorem stripParentChars_run (cs : List Char) :
    ∃ k, cs = (parentRun k).data ++ stripParentChars cs := by
  induction cs using stripParentChars.induct with
  | case1 rest ih =>
    obtain ⟨k, hk⟩ := ih
    refine ⟨k + 1, ?_⟩
    rw [stripParentChars]
    simp only [parentRun, String.data_append]
    show _ = ['.', '.', '/'] ++ (parentRun k).data ++ stripParentChars rest
    rw [List.append_assoc, ← hk]
    rfl
  | case2 cs h =>
    refine ⟨0, ?_⟩
    rw [stripParentChars]
    · rfl
    · exact h

theorem stripParentChars_no_parent (cs rest : List Char) :
    stripParentChars cs ≠ '.' :: '.' :: '/' :: rest := by
  induction cs using stripParentChars.induct with
  | case1 r ih =>
    rw [stripParentChars]
    exact ih
  | case2 cs h =>
    rw [stripParentChars]
    · intro e
      exact h rest e
    · exact h

theorem mapGet_mapSet (m : ByteTally) (key : String) (value : Int) (p : String) :
    mapGet (mapSet m key value) p = if key = p then some value else mapGet m p := by
  induction m with
  | nil => simp [mapSet, mapGet]
  | cons e rest ih =>
    obtain ⟨k, v⟩ := e
    by_cases hk : k = key
    · subst hk
      by_cases hp : k = p <;> simp [mapSet, mapGet, hp]
    · by_cases hp : k = p
      · subst hp
        have : ¬ key = k := fun e => hk e.symm
        simp [mapSet, mapGet, hk, this]
      · simp [mapSet, mapGet, hk, hp, ih]

theorem tallySum_mapSet (m : ByteTally) (key : String) (value : Int) :
    tallySum (mapSet m key value) = tallySum m - (mapGet m key).getD 0 + value := by
  induction m with
  | nil => simp [mapSet, mapGet, tallySum]
  | cons e rest ih =>
    obtain ⟨k, v⟩ := e
    by_cases hk : k = key
    · simp [mapSet, mapGet, tallySum, hk]
      ring
    · simp only [tallySum] at ih
      simp [mapSet, mapGet, tallySum, hk, ih]
      ring

theorem keys_mapSet (m : ByteTally) (key : String) (value : Int) :
    (mapSet m key value).map Prod.fst =
      if (mapGet m key).isSome then m.map Prod.fst else m.map Prod.fst ++ [key] := by
  induction m with
  | nil => simp [mapSet, mapGet]
  | cons e rest ih =>
    obtain ⟨k, v⟩ := e
    by_cases hk : k = key
    · simp [mapSet, mapGet, hk]
    · simp [mapSet, mapGet, hk, ih]
      split <;> simp

theorem mapGet_tokenPass (originalPositionFor : Resolver) (p : String) (tokens : List Token) :
    ∀ bytesPerFile : ByteTally,
      mapGet (tokenPass originalPositionFor tokens bytesPerFile) p =
        if tokens.filter (resolvesTo originalPositionFor p) = [] then mapGet bytesPerFile p
        else some ((mapGet bytesPerFile p).getD 0 +
          spanSum (tokens.filter (resolvesTo originalPositionFor p))) := by
  induction tokens with
  | nil => intro m; simp [tokenPass]
  | cons t rest ih =>
    intro m
    have step : tokenPass originalPositionFor (t :: rest) m =
        tokenPass originalPositionFor rest (tokenStep originalPositionFor m t) := rfl
    rw [step, ih]
    by_cases ht : originalFilepath (originalPositionFor t.locStart) = p
    · have hr : resolvesTo originalPositionFor p t = true := by simp [resolvesTo, ht]
      simp only [List.filter_cons, hr, if_true]
      simp only [tokenStep, mapGet_mapSet, ht, if_true]
      by_cases he : List.filter (resolvesTo originalPositionFor p) rest = []
      · simp [he, spanSum]
      · simp [he, spanSum]
        ring
    · have hr : resolvesTo originalPositionFor p t = false := by simp [resolvesTo, ht]
      simp only [List.filter_cons, hr]
      simp [tokenStep, mapGet_mapSet, ht]

theorem tallySum_tokenPass (originalPositionFor : Resolver) (tokens : List Token) :
    ∀ bytesPerFile : ByteTally,
      tallySum (tokenPass originalPositionFor tokens bytesPerFile) =
        tallySum bytesPerFile + spanSum tokens := by
  induction tokens with
  | nil => intro m; simp [tokenPass, spanSum]
  | cons t rest ih =>
    intro m
    have step : tokenPass originalPositionFor (t :: rest) m =
        tokenPass originalPositionFor rest (tokenStep originalPositionFor m t) := rfl
    rw [step, ih]
    simp only [tokenStep, tallySum_mapSet, spanSum, List.map_cons, List.sum_cons]
    ring

theorem GroupMap.dirUnsized_set : ∀ (groupMap : GroupMap) (key : String) (value : GroupInfo),
    groupMap.DirUnsized → value.DirUnsized → (groupMap.set key value).DirUnsized
  | .nil, key, value, _, hv => by
    simp only [GroupMap.set, GroupMap.DirUnsized]
    exact ⟨hv, trivial⟩
  | .cons k v rest, key, value, hm, hv => by
    simp only [GroupMap.DirUnsized] at hm
    unfold GroupMap.set
    split
    · simp only [GroupMap.DirUnsized]
      exact ⟨hv, hm.2⟩
    · simp only [GroupMap.DirUnsized]
      exact ⟨hm.1, GroupMap.dirUnsized_set rest key value hm.2 hv⟩

theorem GroupMap.dirUnsized_get : ∀ (groupMap : GroupMap) (key : String) (value : GroupInfo),
    groupMap.DirUnsized → groupMap.get key = some value → value.DirUnsized
  | .nil, key, value, _, hg => by simp [GroupMap.get] at hg
  | .cons k v rest, key, value, hm, hg => by
    simp only [GroupMap.DirUnsized] at hm
    unfold GroupMap.get at hg
    split at hg
    · cases hg
      exact hm.1
    · exact GroupMap.dirUnsized_get rest key value hm.2 hg

theorem append_ne_self (p r : String) (hp : p ≠ "") : r ≠ p ++ r := by
  intro h
  apply hp
  have hl := congrArg (fun s => s.data.length) h
  simp only [String.data_append, List.length_append] at hl
  have h0 : p.data.length = 0 := by omega
  apply String.ext
  exact List.length_eq_zero.mp h0

theorem append_slash_ne_empty (s : String) : s ++ "/" ≠ "" := by
  intro h
  have hl := congrArg (fun s => s.data.length) h
  simp at hl

theorem addToGroupInfoFuel_dirUnsized : ∀ (fuel : Nat) (prefixPath : Option String)
    (remainingPath : String) (size : Int) (groupMap : GroupMap),
    (∀ p, prefixPath = some p → p ≠ "") → groupMap.DirUnsized →
    (addToGroupInfoFuel fuel prefixPath remainingPath size groupMap).DirUnsized
  | 0, _, _, _, _, _, hm => by
    simpa only [addToGroupInfoFuel] using hm
  | fuel + 1, none, remainingPath, size, groupMap, _, hm => by
    simp only [addToGroupInfoFuel]
    apply addToGroupInfoFuel_dirUnsized fuel _ _ _ _ _ hm
    intro p hp
    cases hp
    exact append_slash_ne_empty _
  | fuel + 1, some p, remainingPath, size, groupMap, hp, hm => by
    simp only [addToGroupInfoFuel]
    split
    · apply GroupMap.dirUnsized_set _ _ _ hm
      simp only [GroupInfo.DirUnsized, Option.getD_some]
      refine ⟨fun e => ?_, trivial⟩
      exact absurd e (append_ne_self p remainingPath (hp p rfl))
    · apply GroupMap.dirUnsized_set _ _ _ hm
      have hg : ((groupMap.get p).getD (GroupInfo.mk p p none GroupMap.nil)).DirUnsized := by
        cases hget : groupMap.get p with
        | none =>
          simp [GroupInfo.DirUnsized, GroupMap.DirUnsized]
        | some v =>
          simp only [Option.getD_some]
          exact GroupMap.dirUnsized_get _ _ _ hm hget
      generalize (groupMap.get p).getD (GroupInfo.mk p p none GroupMap.nil) = groupInfo at hg ⊢
      obtain ⟨label, path, statSize, groups⟩ := groupInfo
      simp only [GroupInfo.DirUnsized] at hg
      simp only [GroupInfo.setGroups, GroupInfo.DirUnsized, GroupInfo.groups]
      refine ⟨hg.1, ?_⟩
      apply addToGroupInfoFuel_dirUnsized fuel _ _ _ _ _ hg.2
      intro q hq
      cases hq
      exact append_slash_ne_empty _

theorem fullGroupInfo_dirUnsized (fileInfo : List FileInfo) :
    (fullGroupInfo fileInfo).DirUnsized := by
  have key : ∀ (l : List FileInfo) (groupMap : GroupMap), groupMap.DirUnsized →
      (l.foldl (fun groupMap info => addToGroupInfo none info.file info.bytes groupMap)
        groupMap).DirUnsized := by
    intro l
    induction l with
    | nil => intro m hm; exact hm
    | cons info rest ih =>
      intro m hm
      rw [List.foldl_cons]
      apply ih
      exact addToGroupInfoFuel_dirUnsized _ _ _ _ _ (fun p hp => by cases hp) hm
  apply key
  simp only [GroupMap.DirUnsized]

theorem subnodes_withGroups (label path : String) (statSize : Option Int)
    (groups : List GroupNode) :
    (withGroups label path statSize groups).subnodes =
      withGroups label path statSize groups :: subnodesList groups := by
  simp only [withGroups, GroupNode.subnodes]

theorem dirSum_withGroups (label path : String) (statSize : Option Int)
    (groups : List GroupNode) (h : label = path → statSize = none) :
    (withGroups label path statSize groups).DirSum := by
  intro gs hgs hlp
  simp only [withGroups, GroupNode.groups, Option.some.injEq] at hgs
  simp only [withGroups, GroupNode.label, GroupNode.path] at hlp
  subst hgs
  have hs := h hlp
  subst hs
  rfl

mutual
theorem finalizeValue_dirSum : ∀ (value : GroupInfo), value.DirUnsized →
    ∀ node ∈ (finalizeValue value).subnodes, node.DirSum
  | .mk label path statSize .nil, _, node, hn => by
    simp only [finalizeValue, GroupNode.subnodes, List.mem_singleton] at hn
    subst hn
    intro gs hgs _
    simp [GroupNode.groups] at hgs
  | .mk label path statSize (.cons _ child .nil), hv, node, hn => by
    simp only [GroupInfo.DirUnsized, GroupMap.DirUnsized] at hv
    simp only [finalizeValue] at hn
    split at hn
    · exact finalizeValue_dirSum child hv.2.1 node hn
    · rw [subnodes_withGroups] at hn
      rcases List.mem_cons.mp hn with h | h
      · subst h
        exact dirSum_withGroups _ _ _ _ hv.1
      · simp only [subnodesList, List.append_nil] at h
        exact finalizeValue_dirSum child hv.2.1 node h
  | .mk label path statSize (.cons _ child (.cons key value rest)), hv, node, hn => by
    simp only [GroupInfo.DirUnsized] at hv
    have hv2 := hv.2
    simp only [GroupMap.DirUnsized] at hv2
    simp only [finalizeValue] at hn
    rw [subnodes_withGroups] at hn
    rcases List.mem_cons.mp hn with h | h
    · subst h
      exact dirSum_withGroups _ _ _ _ hv.1
    · rw [subnodesList, List.mem_append] at h
      rcases h with h | h
      · exact finalizeValue_dirSum child hv2.1 node h
      · exact getGroupData_dirSum (.cons key value rest) hv2.2 node h
theorem getGroupData_dirSum : ∀ (groupMap : GroupMap), groupMap.DirUnsized →
    ∀ node ∈ subnodesList (getGroupData groupMap), node.DirSum
  | .nil, _, node, hn => by
    simp [getGroupData, subnodesList] at hn
  | .cons _ value rest, hm, node, hn => by
    simp only [GroupMap.DirUnsized] at hm
    simp only [getGroupData, subnodesList, List.mem_append] at hn
    rcases hn with h | h
    · exact finalizeValue_dirSum value hm.1 node h
    · exact getGroupData_dirSum rest hm.2 node h
end


/-! ## The claims -/

/-- C1 (fails on the code): two keys of the tally that strip to the same file name are inserted
one after the other under the same key of the same group map, and the second `set` replaces the
leaf of the first.  For the tally `../a/b/x.js: 10`, `a/b/x.js: 20` the forest is the directory
`a/` over the single leaf `x.js` of 20 bytes: the roots sum to 20 and the tally to 30. -/
theorem grouper_colliding_keys_drop_bytes (localeCompare : String → String → Int)
    (h : localeCompare "a/b/x.js" "a/b/x.js" = 0) :
    grouper localeCompare [("../a/b/x.js", 10), ("a/b/x.js", 20)] =
        [.mk "a/" "a/" (some 20) (some [.mk "x.js" "a/b/x.js" (some 20) none])] ∧
    rootSum (grouper localeCompare [("../a/b/x.js", 10), ("a/b/x.js", 20)]) = 20 ∧
    tallySum [("../a/b/x.js", 10), ("a/b/x.js", 20)] = 30 := by
  have hs : sort localeCompare (fileInfoOf [("../a/b/x.js", 10), ("a/b/x.js", 20)]) =
      [{ file := "a/b/x.js", bytes := 10 }, { file := "a/b/x.js", bytes := 20 }] := by
    show (if localeCompare "a/b/x.js" "a/b/x.js" ≤ 0 then _ else _) = _
    rw [if_pos (le_of_eq h)]
    rfl
  have hg : grouper localeCompare [("../a/b/x.js", 10), ("a/b/x.js", 20)] =
      [.mk "a/" "a/" (some 20) (some [.mk "x.js" "a/b/x.js" (some 20) none])] := by
    unfold grouper
    rw [hs]
    rfl
  refine ⟨hg, ?_, by decide⟩
  rw [hg]
  decide

/-- The statement of C1 on the code, at the comparison by code points. -/
theorem grouper_colliding_keys_drop_bytes_witness :
    codePointCompare "a/b/x.js" "a/b/x.js" = 0 ∧
    rootSum (grouper codePointCompare [("../a/b/x.js", 10), ("a/b/x.js", 20)]) = 20 :=
  ⟨by decide, (grouper_colliding_keys_drop_bytes codePointCompare (by decide)).2.1⟩

/-- C2 (fails on the code): for the tally `a/b/c/d.js: 42` the forest is not a single leaf.  The
directories `a/` and `a/b/` are created without a `statSize`, which is not `=== 0`, so line 158
collapses neither of them; no node is created for `a/b/c/`, the leaf being set in the map of
`a/b/`. -/
theorem grouper_single_entry_keeps_directories (localeCompare : String → String → Int) :
    grouper localeCompare [("a/b/c/d.js", 42)] =
      [.mk "a/" "a/" (some 42)
        (some [.mk "a/b/" "a/b/" (some 42)
          (some [.mk "d.js" "a/b/c/d.js" (some 42) none])])] := by
  rfl

/-- C3 (fails on the code): for the tally `a/x.js: 10`, `a/y.js: 20` the forest has no directory
node `a/`: with the prefix `a/` the remaining path is a single piece, so line 125 sets each leaf
in the root map.  The forest is the two leaves, `x.js` before `y.js`. -/
theorem grouper_two_files_no_directory (localeCompare : String → String → Int)
    (h : localeCompare "a/x.js" "a/y.js" < 0) :
    grouper localeCompare [("a/x.js", 10), ("a/y.js", 20)] =
      [.mk "x.js" "a/x.js" (some 10) none, .mk "y.js" "a/y.js" (some 20) none] := by
  have hs : sort localeCompare (fileInfoOf [("a/x.js", 10), ("a/y.js", 20)]) =
      [{ file := "a/x.js", bytes := 10 }, { file := "a/y.js", bytes := 20 }] := by
    show (if localeCompare "a/x.js" "a/y.js" ≤ 0 then _ else _) = _
    rw [if_pos (le_of_lt h)]
    rfl
  unfold grouper
  rw [hs]
  rfl

/-- The statement of C3 on the code, at the comparison by code points. -/
theorem grouper_two_files_no_directory_witness :
    codePointCompare "a/x.js" "a/y.js" < 0 ∧
    grouper codePointCompare [("a/x.js", 10), ("a/y.js", 20)] =
      [.mk "x.js" "a/x.js" (some 10) none, .mk "y.js" "a/y.js" (some 20) none] :=
  ⟨by decide, grouper_two_files_no_directory codePointCompare (by decide)⟩

/-- C4 (fails on the code): for the tally `a/: 5`, `a/b/c: 7` the file name `a/` gives a leaf
record under the key `a/` (line 125), the key of the directory `a/`.  Line 133 finds that record
where it looks for the directory and puts the leaf `c` below it, and line 162 leaves the size the
record has: the node has 5 bytes and its only child 7.  The roots sum to 5 and the tally to
12. -/
theorem sized_node_with_children_keeps_size (localeCompare : String → String → Int)
    (h : localeCompare "a/" "a/b/c" ≤ 0) :
    grouper localeCompare [("a/", 5), ("a/b/c", 7)] =
      [.mk "" "a/" (some 5) (some [.mk "c" "a/b/c" (some 7) none])] ∧
    rootSum (grouper localeCompare [("a/", 5), ("a/b/c", 7)]) = 5 ∧
    tallySum [("a/", 5), ("a/b/c", 7)] = 12 := by
  have hs : sort localeCompare (fileInfoOf [("a/", 5), ("a/b/c", 7)]) =
      [{ file := "a/", bytes := 5 }, { file := "a/b/c", bytes := 7 }] := by
    show (if localeCompare "a/" "a/b/c" ≤ 0 then _ else _) = _
    rw [if_pos h]
    rfl
  have hg : grouper localeCompare [("a/", 5), ("a/b/c", 7)] =
      [.mk "" "a/" (some 5) (some [.mk "c" "a/b/c" (some 7) none])] := by
    unfold grouper
    rw [hs]
    rfl
  refine ⟨hg, ?_, by decide⟩
  rw [hg]
  decide

/-- The statement of C4 on the code, at the comparison by code points. -/
theorem sized_node_with_children_keeps_size_witness :
    codePointCompare "a/" "a/b/c" ≤ 0 ∧
    grouper codePointCompare [("a/", 5), ("a/b/c", 7)] =
      [.mk "" "a/" (some 5) (some [.mk "c" "a/b/c" (some 7) none])] :=
  ⟨by decide, (sized_node_with_children_keeps_size codePointCompare (by decide)).1⟩

/-- What the nodes created for a directory get: in the forest of every tally, a node, at any
depth, that has children and whose label is its path (the nodes of lines 135-140, and only they)
has the sum of line 166 over its direct children as `statSize`. -/
theorem directory_statSize_eq_sum (localeCompare : String → String → Int)
    (bytesPerFile : ByteTally) (node : GroupNode) (groups : List GroupNode)
    (hnode : node ∈ subnodesList (grouper localeCompare bytesPerFile))
    (hgroups : node.groups = some groups) (hdir : node.label = node.path) :
    node.statSize = some (sumStatSize groups) :=
  getGroupData_dirSum _ (fullGroupInfo_dirUnsized _) node hnode groups hgroups hdir

/-- C5 (fails on the code): `bytesPerFile` is created once, at line 45, and nothing empties it
between two files.  When `one.js` and `two.js` each have one token that resolves to
`src/app/x.js`, of 5 and of 7 bytes, the forest of `two.js` in the run over both counts 12 bytes,
and the forest of `two.js` processed alone counts 7. -/
theorem tally_carried_over_to_next_file (extname : String → String)
    (localeCompare : String → String → Int)
    (h1 : extname "one.js" = ".js") (h2 : extname "two.js" = ".js") :
    (run extname localeCompare "out/" []
        [chunk "one.js" 100 "src/app/x.js" 5, chunk "two.js" 200 "src/app/x.js" 7]
      ).state.webpackViewerData.map BundleEntry.groups =
      [[.mk "src/" "src/" (some 5) (some [.mk "x.js" "src/app/x.js" (some 5) none])],
       [.mk "src/" "src/" (some 12) (some [.mk "x.js" "src/app/x.js" (some 12) none])]] ∧
    (run extname localeCompare "out/" [] [chunk "two.js" 200 "src/app/x.js" 7]
      ).state.webpackViewerData.map BundleEntry.groups =
      [[.mk "src/" "src/" (some 7) (some [.mk "x.js" "src/app/x.js" (some 7) none])]] := by
  constructor
  · simp only [run, runFrom, processFile, passesFilter, chunk, h1, h2]
    rfl
  · simp only [run, runFrom, processFile, passesFilter, chunk, h2]
    rfl

/-- The statement of C5 on the code, at the `extname` of Node and the comparison by code
points. -/
theorem tally_carried_over_to_next_file_witness :
    posixExtname "one.js" = ".js" ∧ posixExtname "two.js" = ".js" ∧
    (run posixExtname codePointCompare "out/" []
        [chunk "one.js" 100 "src/app/x.js" 5, chunk "two.js" 200 "src/app/x.js" 7]
      ).state.webpackViewerData.map BundleEntry.groups =
      [[.mk "src/" "src/" (some 5) (some [.mk "x.js" "src/app/x.js" (some 5) none])],
       [.mk "src/" "src/" (some 12) (some [.mk "x.js" "src/app/x.js" (some 12) none])]] :=
  ⟨by decide, by decide,
    (tally_carried_over_to_next_file posixExtname codePointCompare (by decide) (by decide)).1⟩

theorem mem_keys_of_mapGet (m : ByteTally) (key : String) :
    key ∈ m.map Prod.fst → (mapGet m key).isSome = true := by
  induction m with
  | nil => simp
  | cons e rest ih =>
    obtain ⟨k, v⟩ := e
    by_cases hk : k = key
    · simp [mapGet, hk]
    · intro h
      simp only [List.map_cons, List.mem_cons] at h
      rcases h with h | h
      · exact absurd h.symm hk
      · simp [mapGet, hk, ih h]

theorem keys_nodup_mapSet (m : ByteTally) (key : String) (value : Int)
    (h : (m.map Prod.fst).Nodup) : ((mapSet m key value).map Prod.fst).Nodup := by
  rw [keys_mapSet]
  split
  · exact h
  · rename_i hn
    rw [List.nodup_append]
    refine ⟨h, List.nodup_singleton _, ?_⟩
    intro a ha hb
    simp only [List.mem_singleton] at hb
    subst hb
    exact hn (mem_keys_of_mapGet m a ha)

theorem keys_nodup_tokenPass (originalPositionFor : Resolver) (tokens : List Token) :
    ∀ bytesPerFile : ByteTally, (bytesPerFile.map Prod.fst).Nodup →
      ((tokenPass originalPositionFor tokens bytesPerFile).map Prod.fst).Nodup := by
  induction tokens with
  | nil => intro m h; exact h
  | cons t rest ih =>
    intro m h
    have step : tokenPass originalPositionFor (t :: rest) m =
        tokenPass originalPositionFor rest (tokenStep originalPositionFor m t) := rfl
    rw [step]
    apply ih
    exact keys_nodup_mapSet _ _ _ h

theorem originalFilepath_eq (originalInfo : Option OriginalInfo) :
    originalFilepath originalInfo =
      match originalInfo with
      | some { source := some source } => if source = "" then "**unknown**" else source
      | _ => "**unknown**" := by
  cases originalInfo with
  | none => rfl
  | some info =>
    obtain ⟨source⟩ := info
    cases source <;> rfl

/-- C6: from an empty tally, after the token pass the value of every key `p` is the sum of
`end - start` over the tokens whose start the resolver maps to the source `p`, a token without
source (no result, no source, or an empty one) counting for `**unknown**`; a key of no token has no
entry; every key has one entry; the values sum to `end - start` over all the tokens.  The last
part is the pass over four tokens, of which the second has no source. -/
theorem tokenPass_from_empty (originalPositionFor : Resolver) (tokens : List Token) :
    (∀ p : String,
      mapGet (tokenPass originalPositionFor tokens []) p =
        if tokens.filter (fun token => decide
            ((match originalPositionFor token.locStart with
              | some { source := some source } => if source = "" then "**unknown**" else source
              | _ => "**unknown**") = p)) = [] then none
        else some ((tokens.filter (fun token => decide
            ((match originalPositionFor token.locStart with
              | some { source := some source } => if source = "" then "**unknown**" else source
              | _ => "**unknown**") = p))).map fun token => token.«end» - token.start).sum) ∧
    ((tokenPass originalPositionFor tokens []).map Prod.fst).Nodup ∧
    ((tokenPass originalPositionFor tokens []).map Prod.snd).sum =
      (tokens.map fun token => token.«end» - token.start).sum ∧
    tokenPass
        (fun position =>
          if position.column = 5 then none
          else if position.column = 7 then some { source := some "src/b.js" }
          else some { source := some "src/a.js" })
        [{ start := 0, «end» := 5, locStart := { line := 1, column := 0 } },
         { start := 5, «end» := 7, locStart := { line := 1, column := 5 } },
         { start := 7, «end» := 10, locStart := { line := 1, column := 7 } },
         { start := 10, «end» := 14, locStart := { line := 1, column := 10 } }] [] =
      [("src/a.js", 9), ("**unknown**", 2), ("src/b.js", 3)] := by
  refine ⟨?_, ?_, ?_, by decide⟩
  · intro p
    have hkey : (fun token : Token => decide
        ((match originalPositionFor token.locStart with
          | some { source := some source } => if source = "" then "**unknown**" else source
          | _ => "**unknown**") = p)) = resolvesTo originalPositionFor p := by
      funext token
      simp only [resolvesTo, originalFilepath_eq]
    rw [hkey, mapGet_tokenPass]
    simp only [mapGet, Option.getD_none, zero_add, spanSum]
    rfl
  · exact keys_nodup_tokenPass originalPositionFor tokens [] List.nodup_nil
  · have h := tallySum_tokenPass originalPositionFor tokens []
    simp only [tallySum, spanSum, List.map_nil, List.sum_nil, zero_add] at h
    rw [h]
    rfl

/-- C7: for a token whose start the resolver maps to no result, or to a result without source,
the step of the loop adds `end - start` to the entry of `**unknown**`, leaves the value of every
other key as it was, and creates no entry but that of `**unknown**` when it was absent. -/
theorem unresolved_token_counts_as_unknown (originalPositionFor : Resolver)
    (bytesPerFile : ByteTally) (token : Token)
    (h : originalPositionFor token.locStart = none ∨
      originalPositionFor token.locStart = some { source := none }) :
    mapGet (tokenStep originalPositionFor bytesPerFile token) "**unknown**" =
        some ((mapGet bytesPerFile "**unknown**").getD 0 + (token.«end» - token.start)) ∧
    (∀ key, key ≠ "**unknown**" →
      mapGet (tokenStep originalPositionFor bytesPerFile token) key = mapGet bytesPerFile key) ∧
    (tokenStep originalPositionFor bytesPerFile token).map Prod.fst =
      if (mapGet bytesPerFile "**unknown**").isSome then bytesPerFile.map Prod.fst
      else bytesPerFile.map Prod.fst ++ ["**unknown**"] := by
  have hk : originalFilepath (originalPositionFor token.locStart) = "**unknown**" := by
    rcases h with h | h <;> rw [h] <;> rfl
  refine ⟨?_, ?_, ?_⟩
  · simp only [tokenStep, hk, mapGet_mapSet, if_true, Token.span]
  · intro key hkey
    simp only [tokenStep, hk, mapGet_mapSet]
    rw [if_neg (fun e => hkey e.symm)]
  · simp only [tokenStep, hk, keys_mapSet]

/-- C7 at a token of 4 bytes that the resolver maps to nothing, on a tally that holds 3 unknown
bytes and 9 bytes of `src/a.js`. -/
theorem unresolved_token_counts_as_unknown_witness :
    mapGet (tokenStep (fun _ => none) [("src/a.js", 9), ("**unknown**", 3)]
      { start := 10, «end» := 14, locStart := { line := 1, column := 10 } }) "**unknown**" =
      some 7 :=
  (unresolved_token_counts_as_unknown (fun _ => none) [("src/a.js", 9), ("**unknown**", 3)]
    { start := 10, «end» := 14, locStart := { line := 1, column := 10 } } (Or.inl rfl)).1

/-- C8: the file name of a path is the path without its leading run of `../`: the path is `k`
copies of `../` followed by the file name, the file name does not start with `../`, and
`../../lib/foo.js` gives `lib/foo.js`. -/
theorem filename_strips_leading_parents (filepath : String) :
    (∃ k, filepath = parentRun k ++ filename filepath) ∧
    (¬ ∃ rest, filename filepath = "../" ++ rest) ∧
    filename "../../lib/foo.js" = "lib/foo.js" := by
  refine ⟨?_, ?_, by decide⟩
  · obtain ⟨k, hk⟩ := stripParentChars_run filepath.data
    refine ⟨k, ?_⟩
    apply String.ext
    rw [String.data_append]
    exact hk
  · rintro ⟨rest, h⟩
    have h2 := congrArg String.data h
    rw [String.data_append] at h2
    exact stripParentChars_no_parent filepath.data rest.data h2

/-- C9 (fails on the code): line 71 negates the element `find` returns, not whether one was
found.  The positional argument `0`, which `minimist` gives as the number 0, occurs in
`chunk-0.js`, and the empty string occurs in `main-abc.js`; both are falsy, and the file does not
pass, whatever its extension. -/
theorem falsy_filter_rejects_matching_file (extname : String → String) :
    passesFilter extname [.num 0] "chunk-0.js" = false ∧
    indexOfGe0 "chunk-0.js" (Arg.num 0).text = true ∧
    passesFilter extname [.str ""] "main-abc.js" = false ∧
    indexOfGe0 "main-abc.js" (Arg.str "").text = true := by
  refine ⟨?_, by decide, ?_, by decide⟩
  · unfold passesFilter
    by_cases h : extname "chunk-0.js" = ".js"
    · simp [h]
      decide
    · simp [h]
  · unfold passesFilter
    by_cases h : extname "main-abc.js" = ".js"
    · simp [h]
      decide
    · simp [h]

/-- C10 (fails on the code): the sort is stable and two keys that strip to the same file name
compare equal, so they reach `addToGroupInfo` in the order of the `Map`, and the leaf of the last
one stays.  The tallies `../lib/util/foo.js: 1`, `lib/util/foo.js: 2` and `lib/util/foo.js: 2`,
`../lib/util/foo.js: 1` hold the same entries and give forests of 2 and of 1 bytes. -/
theorem grouper_depends_on_insertion_order (localeCompare : String → String → Int)
    (h : localeCompare "lib/util/foo.js" "lib/util/foo.js" = 0) :
    grouper localeCompare [("../lib/util/foo.js", 1), ("lib/util/foo.js", 2)] =
      [.mk "lib/" "lib/" (some 2) (some [.mk "foo.js" "lib/util/foo.js" (some 2) none])] ∧
    grouper localeCompare [("lib/util/foo.js", 2), ("../lib/util/foo.js", 1)] =
      [.mk "lib/" "lib/" (some 1) (some [.mk "foo.js" "lib/util/foo.js" (some 1) none])] := by
  have hs1 : sort localeCompare (fileInfoOf [("../lib/util/foo.js", 1), ("lib/util/foo.js", 2)]) =
      [{ file := "lib/util/foo.js", bytes := 1 }, { file := "lib/util/foo.js", bytes := 2 }] := by
    show (if localeCompare "lib/util/foo.js" "lib/util/foo.js" ≤ 0 then _ else _) = _
    rw [if_pos (le_of_eq h)]
    rfl
  have hs2 : sort localeCompare (fileInfoOf [("lib/util/foo.js", 2), ("../lib/util/foo.js", 1)]) =
      [{ file := "lib/util/foo.js", bytes := 2 }, { file := "lib/util/foo.js", bytes := 1 }] := by
    show (if localeCompare "lib/util/foo.js" "lib/util/foo.js" ≤ 0 then _ else _) = _
    rw [if_pos (le_of_eq h)]
    rfl
  constructor
  · unfold grouper
    rw [hs1]
    rfl
  · unfold grouper
    rw [hs2]
    rfl

/-- The statement of C10 on the code, at the comparison by code points. -/
theorem grouper_depends_on_insertion_order_witness :
    codePointCompare "lib/util/foo.js" "lib/util/foo.js" = 0 ∧
    grouper codePointCompare [("../lib/util/foo.js", 1), ("lib/util/foo.js", 2)] =
      [.mk "lib/" "lib/" (some 2) (some [.mk "foo.js" "lib/util/foo.js" (some 2) none])] :=
  ⟨by decide, (grouper_depends_on_insertion_order codePointCompare (by decide)).1⟩

/-! ## Lemmas on the loop, on the pieces of a path and on the leaves -/

theorem processFile_sameBut (extname : String → String) (localeCompare : String → String → Int)
    (dirpath : String) (positionals : List Arg) (warning : String) (s t : RunState)
    (file : CandidateFile) (h : s.SameBut warning t) :
    (processFile extname localeCompare dirpath positionals s file).SameBut warning
      (processFile extname localeCompare dirpath positionals t file) := by
  obtain ⟨hb, hw, ho, pre, post, hs, ht⟩ := h
  unfold processFile
  by_cases hp : passesFilter extname positionals file.filepath = true
  · by_cases hm : file.mapAccess = true
    · by_cases hr : file.readOk = true
      · cases hc : file.consumer with
        | none =>
          simp only [hp, hm, hr, not_true_eq_false, if_false, Outcome.SameBut, RunState.SameBut]
          exact ⟨hb, hw, by rw [ho], pre, post, hs, ht⟩
        | some r =>
          simp only [hp, hm, hr, not_true_eq_false, if_false, Outcome.SameBut, RunState.SameBut]
          exact ⟨by rw [hb], by rw [hb, hw], by rw [ho], pre, post, hs, ht⟩
      · simp only [hp, hm, hr, not_true_eq_false, if_false, not_false_eq_true, if_true,
          Outcome.SameBut, RunState.SameBut]
        refine ⟨hb, hw, ho, pre,
          post ++ ["Unable to read file: " ++ dirpath ++ file.filepath ++ "\n"], ?_, ?_⟩
        · rw [hs]; simp
        · rw [ht]; simp
    · simp only [hp, hm, not_true_eq_false, if_false, not_false_eq_true, if_true,
        Outcome.SameBut, RunState.SameBut]
      refine ⟨hb, hw, ho, pre,
        post ++ ["Unable to read sourcemap file: " ++ dirpath ++ file.filepath ++ ".map\n"],
        ?_, ?_⟩
      · rw [hs]; simp
      · rw [ht]; simp
  · simp only [hp, not_false_eq_true, if_true, Outcome.SameBut, RunState.SameBut]
    exact ⟨hb, hw, ho, pre, post, hs, ht⟩

theorem runFrom_sameBut (extname : String → String) (localeCompare : String → String → Int)
    (dirpath : String) (positionals : List Arg) (warning : String) (files : List CandidateFile) :
    ∀ s t : RunState, s.SameBut warning t →
      (runFrom extname localeCompare dirpath positionals s files).SameBut warning
        (runFrom extname localeCompare dirpath positionals t files) := by
  induction files with
  | nil => intro s t h; exact h
  | cons file rest ih =>
    intro s t h
    have hp := processFile_sameBut extname localeCompare dirpath positionals warning s t file h
    simp only [runFrom]
    cases h1 : processFile extname localeCompare dirpath positionals s file with
    | completed s1 =>
      cases h2 : processFile extname localeCompare dirpath positionals t file with
      | completed t1 =>
        rw [h1, h2] at hp
        exact ih s1 t1 hp
      | rejected t1 =>
        rw [h1, h2] at hp
        exact hp.elim
    | rejected s1 =>
      cases h2 : processFile extname localeCompare dirpath positionals t file with
      | completed t1 =>
        rw [h1, h2] at hp
        exact hp.elim
      | rejected t1 =>
        rw [h1, h2] at hp
        exact hp

theorem processFile_without_map (extname : String → String)
    (localeCompare : String → String → Int) (dirpath : String) (positionals : List Arg)
    (state : RunState) (file : CandidateFile)
    (hpass : passesFilter extname positionals file.filepath = true)
    (hmap : file.mapAccess = false) :
    processFile extname localeCompare dirpath positionals state file =
      .completed { state with stderr := state.stderr ++ [mapWarning dirpath file] } := by
  unfold processFile
  simp [hpass, hmap, mapWarning]

theorem getGroupData_eq_map : ∀ groupMap : GroupMap,
    getGroupData groupMap = groupMap.values.map finalizeValue
  | .nil => rfl
  | .cons _ value rest => by
    simp only [getGroupData, GroupMap.values, List.map_cons]
    rw [getGroupData_eq_map rest]

theorem sumStatSize_eq_sum (groups : List GroupNode) :
    sumStatSize groups = (groups.map fun node => node.statSize.getD 0).sum := by
  have key : ∀ (l : List GroupNode) (acc : Int),
      l.foldl (fun sum currValue => sum + currValue.statSize.getD 0) acc =
        acc + (l.map fun node => node.statSize.getD 0).sum := by
    intro l
    induction l with
    | nil => intro acc; simp
    | cons x xs ih =>
      intro acc
      simp only [List.foldl_cons, List.map_cons, List.sum_cons]
      rw [ih]
      ring
  unfold sumStatSize
  rw [key]
  simp

theorem splitChars_append_slash (a b : List Char) :
    splitChars (a ++ '/' :: b) = splitChars a ++ splitChars b := by
  induction a with
  | nil => simp [splitChars]
  | cons c a ih =>
    by_cases hc : c = '/'
    · subst hc
      simp [splitChars, ih]
    · simp only [List.cons_append, splitChars, hc, if_false, List.append_eq]
      rw [ih]
      cases hs : splitChars a with
      | nil => exact absurd hs (splitChars_ne_nil a)
      | cons part parts => simp

theorem split_append_slash (a b : String) : split (a ++ "/" ++ b) = split a ++ split b := by
  unfold split
  have : (a ++ "/" ++ b).data = a.data ++ '/' :: b.data := by
    simp [String.data_append]
  rw [this, splitChars_append_slash, List.map_append]

theorem lastSegment_append_slash (a b : String) :
    lastSegment (a ++ "/" ++ b) = lastSegment b := by
  unfold lastSegment
  rw [split_append_slash]
  cases hb : split b with
  | nil => exact absurd hb (split_ne_nil b)
  | cons x xs =>
    rw [List.getLastD_eq_getLast?, List.getLastD_eq_getLast?,
      List.getLast?_append_of_ne_nil _ (by simp)]

theorem splitChars_length (cs : List Char) : (splitChars cs).length = cs.count '/' + 1 := by
  induction cs with
  | nil => simp [splitChars]
  | cons c cs ih =>
    by_cases hc : c = '/'
    · subst hc
      simp [splitChars, ih]
    · simp only [splitChars, hc, if_false]
      cases hs : splitChars cs with
      | nil => exact absurd hs (splitChars_ne_nil cs)
      | cons part parts =>
        rw [hs] at ih
        rw [List.count_cons_of_ne (fun e => hc e.symm)]
        simpa using ih

theorem split_length_ne_one (s : String) (h : '/' ∈ s.data) : (split s).length ≠ 1 := by
  unfold split
  rw [List.length_map, splitChars_length]
  have := List.count_pos_iff.mpr h
  omega

theorem eq_of_split_length_one (s : String) (h : (split s).length = 1) :
    split s = [s] := by
  have hj := join_split s
  cases hs : split s with
  | nil => exact absurd hs (split_ne_nil s)
  | cons x xs =>
    rw [hs] at h hj
    cases xs with
    | nil =>
      simp only [join] at hj
      rw [hj]
    | cons y ys => simp at h

theorem lastSegment_of_length_one (s : String) (h : (split s).length = 1) :
    lastSegment s = s := by
  unfold lastSegment
  rw [eq_of_split_length_one s h]
  rfl

theorem eq_head_join_tail (s : String) (h : (split s).length ≠ 1) :
    s = (split s).headD "" ++ "/" ++ join (split s).tail := by
  have hj := join_split s
  cases hs : split s with
  | nil => exact absurd hs (split_ne_nil s)
  | cons x xs =>
    rw [hs] at h hj
    cases xs with
    | nil => simp at h
    | cons y ys =>
      simp only [join] at hj
      simp only [List.headD_cons, List.tail_cons]
      exact hj.symm

theorem lastSegment_parent (s : String) : lastSegment ("../" ++ s) = lastSegment s := by
  have h : "../" ++ s = ".." ++ "/" ++ s := by
    apply String.ext
    simp [String.data_append]
  rw [h, lastSegment_append_slash]

theorem lastSegment_filename (filepath : String) :
    lastSegment (filename filepath) = lastSegment filepath := by
  obtain ⟨k, hk⟩ := stripParentChars_run filepath.data
  have hp : filepath = parentRun k ++ filename filepath := by
    apply String.ext
    rw [String.data_append]
    exact hk
  clear hk
  generalize filename filepath = f at hp
  subst hp
  induction k with
  | zero =>
    have : parentRun 0 ++ f = f := by
      apply String.ext
      simp [parentRun, String.data_append]
    rw [this]
  | succ k ih =>
    have : parentRun (k + 1) ++ f = "../" ++ (parentRun k ++ f) := by
      apply String.ext
      simp [parentRun, String.data_append]
    rw [this, lastSegment_parent]
    exact ih

theorem hasChildren_withGroups (label path : String) (statSize : Option Int) (node : GroupNode)
    (groups : List GroupNode) :
    (withGroups label path statSize (node :: groups)).hasChildren = true := rfl

mutual
theorem finalizeValue_leafData : ∀ value : GroupInfo,
    ((finalizeValue value).subnodes.filter fun node => ! node.hasChildren).map GroupNode.data =
      value.leafData
  | .mk label path statSize .nil => by
    simp [finalizeValue, GroupNode.subnodes, GroupNode.hasChildren, GroupNode.data,
      GroupInfo.leafData, GroupNode.path, GroupNode.label, GroupNode.statSize]
  | .mk label path statSize (.cons _ child .nil) => by
    have ih := finalizeValue_leafData child
    simp only [finalizeValue]
    split
    · rw [ih]
      simp [GroupInfo.leafData, GroupMap.leafData]
    · rw [subnodes_withGroups, List.filter_cons, hasChildren_withGroups]
      simp only [Bool.not_true, Bool.false_eq_true, if_false, subnodesList, List.append_nil]
      rw [ih]
      simp [GroupInfo.leafData, GroupMap.leafData]
  | .mk label path statSize (.cons _ child (.cons key value rest)) => by
    have ih := finalizeValue_leafData child
    have ih2 := getGroupData_leafData (.cons key value rest)
    simp only [finalizeValue]
    rw [subnodes_withGroups, List.filter_cons, hasChildren_withGroups]
    simp only [Bool.not_true, Bool.false_eq_true, if_false]
    rw [subnodesList, List.filter_append, List.map_append, ih]
    unfold leaves at ih2
    rw [ih2]
    simp [GroupInfo.leafData, GroupMap.leafData]
theorem getGroupData_leafData : ∀ groupMap : GroupMap,
    (leaves (getGroupData groupMap)).map GroupNode.data = groupMap.leafData
  | .nil => by
    simp [getGroupData, leaves, subnodesList, GroupMap.leafData]
  | .cons _ value rest => by
    have ih := finalizeValue_leafData value
    have ih2 := getGroupData_leafData rest
    unfold leaves at ih2 ⊢
    simp only [getGroupData, subnodesList, List.filter_append, List.map_append,
      GroupMap.leafData]
    rw [ih, ih2]
end

theorem GroupInfo.leafData_of_ne_nil (label path : String) (statSize : Option Int)
    (groups : GroupMap) (h : groups.leafData ≠ []) :
    (GroupInfo.mk label path statSize groups).leafData = groups.leafData := by
  cases groups with
  | nil => simp [GroupMap.leafData] at h
  | cons k v r => simp [GroupInfo.leafData]

theorem GroupInfo.tidy_of_ne_nil (label path : String) (statSize : Option Int)
    (groups : GroupMap) (key : String) (h : groups.leafData ≠ [])
    (hk : EndsWithSlash key) (hg : groups.Tidy) :
    (GroupInfo.mk label path statSize groups).Tidy key := by
  cases groups with
  | nil => simp [GroupMap.leafData] at h
  | cons k v r =>
    simp only [GroupInfo.Tidy]
    exact ⟨hk, hg⟩

theorem GroupInfo.dir_of_tidy (value : GroupInfo) (key : String) (h : value.Tidy key)
    (hk : EndsWithSlash key) :
    ∃ label path statSize k child rest,
      value = .mk label path statSize (.cons k child rest) ∧
        GroupMap.Tidy (.cons k child rest) := by
  obtain ⟨label, path, statSize, groups⟩ := value
  cases groups with
  | nil =>
    simp only [GroupInfo.Tidy] at h
    exact absurd hk h.2
  | cons k child rest =>
    simp only [GroupInfo.Tidy] at h
    exact ⟨label, path, statSize, k, child, rest, rfl, h.2⟩

theorem GroupMap.tidy_get : ∀ (groupMap : GroupMap) (key : String) (value : GroupInfo),
    groupMap.Tidy → groupMap.get key = some value → value.Tidy key
  | .nil, key, value, _, hg => by simp [GroupMap.get] at hg
  | .cons k v rest, key, value, hm, hg => by
    simp only [GroupMap.Tidy] at hm
    unfold GroupMap.get at hg
    split at hg
    · rename_i hk
      cases hg
      subst hk
      exact hm.1
    · exact GroupMap.tidy_get rest key value hm.2 hg

theorem GroupMap.tidy_set : ∀ (groupMap : GroupMap) (key : String) (value : GroupInfo),
    groupMap.Tidy → value.Tidy key → (groupMap.set key value).Tidy
  | .nil, key, value, _, hv => by
    simp only [GroupMap.set, GroupMap.Tidy]
    exact ⟨hv, trivial⟩
  | .cons k v rest, key, value, hm, hv => by
    simp only [GroupMap.Tidy] at hm
    unfold GroupMap.set
    split
    · rename_i hk
      subst hk
      simp only [GroupMap.Tidy]
      exact ⟨hv, hm.2⟩
    · simp only [GroupMap.Tidy]
      exact ⟨hm.1, GroupMap.tidy_set rest key value hm.2 hv⟩

theorem GroupMap.leafData_set_absent : ∀ (groupMap : GroupMap) (key : String)
    (value : GroupInfo), groupMap.get key = none →
    (groupMap.set key value).leafData = groupMap.leafData ++ value.leafData
  | .nil, key, value, _ => by
    simp [GroupMap.set, GroupMap.leafData]
  | .cons k v rest, key, value, hg => by
    unfold GroupMap.get at hg
    split at hg
    · cases hg
    · rename_i hk
      simp only [GroupMap.set, hk, if_false, GroupMap.leafData]
      rw [GroupMap.leafData_set_absent rest key value hg, List.append_assoc]

theorem GroupMap.leafData_set_present : ∀ (groupMap : GroupMap) (key : String)
    (value old : GroupInfo) (x : String × String × Option Int),
    groupMap.get key = some old → List.Perm value.leafData (x :: old.leafData) →
    List.Perm (groupMap.set key value).leafData (x :: groupMap.leafData)
  | .nil, key, value, old, x, hg, _ => by simp [GroupMap.get] at hg
  | .cons k v rest, key, value, old, x, hg, hp => by
    unfold GroupMap.get at hg
    split at hg
    · rename_i hk
      cases hg
      simp only [GroupMap.set, hk, if_true, GroupMap.leafData]
      exact (List.Perm.append_right _ hp)
    · rename_i hk
      simp only [GroupMap.set, hk, if_false, GroupMap.leafData]
      have ih := GroupMap.leafData_set_present rest key value old x hg hp
      exact (List.Perm.append_left _ ih).trans List.perm_middle

theorem GroupMap.leafData_get_subset : ∀ (groupMap : GroupMap) (key : String)
    (value : GroupInfo), groupMap.get key = some value →
    ∀ d ∈ value.leafData, d ∈ groupMap.leafData
  | .nil, key, value, hg, _, _ => by simp [GroupMap.get] at hg
  | .cons k v rest, key, value, hg, d, hd => by
    unfold GroupMap.get at hg
    simp only [GroupMap.leafData, List.mem_append]
    split at hg
    · cases hg
      exact Or.inl hd
    · exact Or.inr (GroupMap.leafData_get_subset rest key value hg d hd)

theorem GroupMap.get_eq_none_of_tidy : ∀ (groupMap : GroupMap) (p : String),
    groupMap.Tidy → ¬ EndsWithSlash p → p ∉ groupMap.leafData.map Prod.fst →
    groupMap.get p = none
  | .nil, _, _, _, _ => rfl
  | .cons k v rest, p, hm, hp, hn => by
    simp only [GroupMap.Tidy] at hm
    simp only [GroupMap.leafData, List.map_append, List.mem_append, not_or] at hn
    unfold GroupMap.get
    split
    · rename_i hk
      subst hk
      exfalso
      obtain ⟨label, path, statSize, groups⟩ := v
      cases groups with
      | nil =>
        have h1 := hm.1
        simp only [GroupInfo.Tidy] at h1
        apply hn.1
        simp [GroupInfo.leafData, h1.1]
      | cons k2 c r =>
        have h1 := hm.1
        simp only [GroupInfo.Tidy] at h1
        exact hp h1.1
    · exact GroupMap.get_eq_none_of_tidy rest p hm.2 hp hn.2

theorem append_append_slash (a b c d : String) (h : c = b ++ "/" ++ d) :
    a ++ b ++ "/" ++ d = a ++ c := by
  subst h
  apply String.ext
  simp [String.data_append]

/-- One insertion below a prefix, for a file name that does not end with a slash and is the path
of no node without children yet: the shape is kept and one such node is added, with the file name
as path, its last piece as label and `size` as `statSize`. -/
theorem addToGroupInfoFuel_leafData : ∀ (fuel : Nat) (prefixPath remainingPath : String)
    (size : Int) (groupMap : GroupMap) (p : String),
    remainingPath.length < fuel → groupMap.Tidy → EndsWithSlash prefixPath →
    prefixPath ++ remainingPath = p → ¬ EndsWithSlash p →
    p ∉ groupMap.leafData.map Prod.fst →
    (addToGroupInfoFuel fuel (some prefixPath) remainingPath size groupMap).Tidy ∧
      List.Perm (addToGroupInfoFuel fuel (some prefixPath) remainingPath size groupMap).leafData
        ((p, lastSegment remainingPath, some size) :: groupMap.leafData)
  | 0, _, _, _, _, _, h, _, _, _, _, _ => absurd h (Nat.not_lt_zero _)
  | fuel + 1, prefixPath, remainingPath, size, groupMap, p, hfuel, hm, hpre, hp, hend, hnew => by
    simp only [addToGroupInfoFuel, Option.getD_some]
    split
    · rename_i hlen
      have hget := GroupMap.get_eq_none_of_tidy groupMap p hm hend hnew
      rw [hp, lastSegment_of_length_one remainingPath hlen]
      constructor
      · apply GroupMap.tidy_set _ _ _ hm
        simp only [GroupInfo.Tidy]
        exact ⟨trivial, hend⟩
      · rw [GroupMap.leafData_set_absent _ _ _ hget]
        simp only [GroupInfo.leafData]
        exact (List.perm_append_comm).trans (List.Perm.refl _)
    · rename_i hlen
      have hrem := eq_head_join_tail remainingPath hlen
      have hlt := length_join_tail_lt remainingPath hlen
      have hlast : lastSegment remainingPath = lastSegment (join (split remainingPath).tail) := by
        conv_lhs => rw [hrem]
        exact lastSegment_append_slash _ _
      have hp2 : prefixPath ++ (split remainingPath).headD "" ++ "/" ++
          join (split remainingPath).tail = p := by
        rw [append_append_slash _ _ _ _ hrem]
        exact hp
      have hpre2 : EndsWithSlash (prefixPath ++ (split remainingPath).headD "" ++ "/") :=
        ⟨_, rfl⟩
      rw [hlast]
      cases hget : groupMap.get prefixPath with
      | none =>
        simp only [Option.getD_none, GroupInfo.setGroups, GroupInfo.groups]
        obtain ⟨ht, hperm⟩ := addToGroupInfoFuel_leafData fuel _ _ size .nil p (by omega)
          trivial hpre2 hp2 hend (by simp [GroupMap.leafData])
        have hne : (addToGroupInfoFuel fuel
            (some (prefixPath ++ (split remainingPath).headD "" ++ "/"))
            (join (split remainingPath).tail) size .nil).leafData ≠ [] := by
          intro h0
          rw [h0] at hperm
          exact absurd hperm.length_eq (by simp)
        constructor
        · apply GroupMap.tidy_set _ _ _ hm
          exact GroupInfo.tidy_of_ne_nil _ _ _ _ _ hne hpre ht
        · rw [GroupMap.leafData_set_absent _ _ _ hget, GroupInfo.leafData_of_ne_nil _ _ _ _ hne]
          simp only [GroupMap.leafData] at hperm
          exact (List.Perm.append_left _ hperm).trans List.perm_append_comm
      | some old =>
        simp only [Option.getD_some]
        obtain ⟨label, path, statSize, k, child, rest, rfl, hgt⟩ :=
          GroupInfo.dir_of_tidy old prefixPath (GroupMap.tidy_get _ _ _ hm hget) hpre
        simp only [GroupInfo.setGroups, GroupInfo.groups]
        have hsub : p ∉ (GroupMap.leafData (.cons k child rest)).map Prod.fst := by
          intro hin
          apply hnew
          obtain ⟨d, hd, hd1⟩ := List.mem_map.mp hin
          exact List.mem_map.mpr
            ⟨d, GroupMap.leafData_get_subset _ _ _ hget d (by simpa [GroupInfo.leafData] using hd),
              hd1⟩
        obtain ⟨ht, hperm⟩ := addToGroupInfoFuel_leafData fuel _ _ size (.cons k child rest) p
          (by omega) hgt hpre2 hp2 hend hsub
        have hne : (addToGroupInfoFuel fuel
            (some (prefixPath ++ (split remainingPath).headD "" ++ "/"))
            (join (split remainingPath).tail) size (.cons k child rest)).leafData ≠ [] := by
          intro h0
          rw [h0] at hperm
          exact absurd hperm.length_eq (by simp)
        constructor
        · apply GroupMap.tidy_set _ _ _ hm
          exact GroupInfo.tidy_of_ne_nil _ _ _ _ _ hne hpre ht
        · apply GroupMap.leafData_set_present _ _ _ _ _ hget
          rw [GroupInfo.leafData_of_ne_nil _ _ _ _ hne]
          simpa [GroupInfo.leafData] using hperm

/-- One call of line 148 for a file name with a slash that does not end with one. -/
theorem addToGroupInfo_leafData (file : String) (size : Int) (groupMap : GroupMap)
    (hm : groupMap.Tidy) (hslash : '/' ∈ file.data) (hend : ¬ EndsWithSlash file)
    (hnew : file ∉ groupMap.leafData.map Prod.fst) :
    (addToGroupInfo none file size groupMap).Tidy ∧
      List.Perm (addToGroupInfo none file size groupMap).leafData
        ((file, lastSegment file, some size) :: groupMap.leafData) := by
  have hlen := split_length_ne_one file hslash
  have hrem := eq_head_join_tail file hlen
  have hlt := length_join_tail_lt file hlen
  have hlast : lastSegment file = lastSegment (join (split file).tail) := by
    conv_lhs => rw [hrem]
    exact lastSegment_append_slash _ _
  unfold addToGroupInfo
  simp only [addToGroupInfoFuel]
  rw [hlast]
  exact addToGroupInfoFuel_leafData (file.length + 1) _ _ size groupMap file (by omega) hm
    ⟨_, rfl⟩ hrem.symm hend hnew

theorem insertSorted_perm (localeCompare : String → String → Int) (a : FileInfo)
    (l : List FileInfo) : List.Perm (insertSorted localeCompare a l) (a :: l) := by
  induction l with
  | nil => exact List.Perm.refl _
  | cons b rest ih =>
    unfold insertSorted
    split
    · exact List.Perm.refl _
    · exact (List.Perm.cons b ih).trans (List.Perm.swap a b rest)

theorem sort_perm (localeCompare : String → String → Int) (l : List FileInfo) :
    List.Perm (sort localeCompare l) l := by
  induction l with
  | nil => exact List.Perm.refl _
  | cons a rest ih =>
    unfold sort
    exact (insertSorted_perm localeCompare a _).trans (List.Perm.cons a ih)

/-- The loop of lines 147-149 over file names that are pairwise distinct, have a slash and do not
end with one. -/
theorem foldl_addToGroupInfo_leafData (fileInfo : List FileInfo) :
    ∀ groupMap : GroupMap, groupMap.Tidy →
      (∀ info ∈ fileInfo, '/' ∈ info.file.data ∧ ¬ EndsWithSlash info.file) →
      (fileInfo.map FileInfo.file).Nodup →
      (∀ info ∈ fileInfo, info.file ∉ groupMap.leafData.map Prod.fst) →
      List.Perm
        (fileInfo.foldl (fun groupMap info => addToGroupInfo none info.file info.bytes groupMap)
          groupMap).leafData
        (groupMap.leafData ++
          fileInfo.map fun info => (info.file, lastSegment info.file, some info.bytes)) := by
  induction fileInfo with
  | nil => intro m _ _ _ _; simp
  | cons info rest ih =>
    intro m hm hgood hnodup hnew
    rw [List.foldl_cons]
    have hg := hgood info (List.mem_cons_self _ _)
    obtain ⟨ht, hperm⟩ := addToGroupInfo_leafData info.file info.bytes m hm hg.1 hg.2
      (hnew info (List.mem_cons_self _ _))
    rw [List.map_cons, List.nodup_cons] at hnodup
    have hnew2 : ∀ i ∈ rest, i.file ∉
        (addToGroupInfo none info.file info.bytes m).leafData.map Prod.fst := by
      intro i hi hin
      have := (hperm.map Prod.fst).mem_iff.mp hin
      rw [List.map_cons, List.mem_cons] at this
      rcases this with h | h
      · apply hnodup.1
        simp only at h
        rw [← h]
        exact List.mem_map_of_mem _ hi
      · exact hnew i (List.mem_cons_of_mem _ hi) h
    have := ih _ ht (fun i hi => hgood i (List.mem_cons_of_mem _ hi)) hnodup.2 hnew2
    refine this.trans ?_
    rw [List.map_cons]
    exact (List.Perm.append_right _ hperm).trans (by
      simp only [List.cons_append]
      exact List.perm_middle.symm)

theorem not_endsWithSlash (s : String) (h : s.data.getLast? ≠ some '/') :
    ¬ ∃ q, s = q ++ "/" := by
  rintro ⟨q, rfl⟩
  apply h
  simp [String.data_append]

/-! ## The claims on the loop and on the leaves -/

/-- C11 (fails on the code): the call of `SourceMapConsumer.with` at line 94 is in no `try`, unlike
the access and the reads of lines 75-91.  When it rejects for a file that passed the filter and
was read, the loop ends there, whatever the files after it: nothing is pushed for them. -/
theorem rejected_sourcemap_stops_run (extname : String → String)
    (localeCompare : String → String → Int) (dirpath : String) (positionals : List Arg)
    (state : RunState) (file : CandidateFile) (rest : List CandidateFile)
    (hpass : passesFilter extname positionals file.filepath = true)
    (hmap : file.mapAccess = true) (hread : file.readOk = true)
    (hconsumer : file.consumer = none) :
    runFrom extname localeCompare dirpath positionals state (file :: rest) =
      .rejected { bytesPerFile := state.bytesPerFile
                  webpackViewerData := state.webpackViewerData
                  stdout := state.stdout ++ ["Adding " ++ dirpath ++ file.filepath ++ "\n"]
                  stderr := state.stderr } := by
  simp only [runFrom, processFile, hpass, hmap, hread, hconsumer, not_true_eq_false, if_false]

/-- C11 at the files `bad.js`, whose sourcemap is rejected, and `good.js`: the run is rejected
with an empty collection, and the run over `good.js` alone pushes its entry. -/
theorem rejected_sourcemap_stops_run_witness :
    run posixExtname codePointCompare "out/" []
        [unparsable "bad.js" 100, chunk "good.js" 200 "src/app/x.js" 7] =
      .rejected { bytesPerFile := [], webpackViewerData := [],
                  stdout := ["Adding out/bad.js\n"], stderr := [] } ∧
    (run posixExtname codePointCompare "out/" [] [chunk "good.js" 200 "src/app/x.js" 7]
      ).state.webpackViewerData.map BundleEntry.label = ["good.js"] :=
  ⟨rejected_sourcemap_stops_run posixExtname codePointCompare "out/" [] RunState.init
      (unparsable "bad.js" 100) [chunk "good.js" 200 "src/app/x.js" 7] (by decide) rfl rfl rfl,
    by decide⟩

theorem runFrom_append (extname : String → String) (localeCompare : String → String → Int)
    (dirpath : String) (positionals : List Arg) (before after : List CandidateFile) :
    ∀ state : RunState,
      runFrom extname localeCompare dirpath positionals state (before ++ after) =
        match runFrom extname localeCompare dirpath positionals state before with
        | .completed mid => runFrom extname localeCompare dirpath positionals mid after
        | .rejected stopped => .rejected stopped := by
  induction before with
  | nil => intro state; rfl
  | cons b bs ih =>
    intro state
    simp only [List.cons_append, runFrom]
    cases processFile extname localeCompare dirpath positionals state b with
    | completed next => exact ih next
    | rejected next => rfl

/-- C12: a file that passes the filter and has no accessible `.map` file changes nothing but the
error stream, to which the warning with `dirpath`, the name and `.map` is added.  In a run, when
the files before it leave the state `mid`, the run goes on over the files after it from `mid`
with that one line added, as the run without the file goes on from `mid`: the two runs end the
same way, with the same tally, the same collection and the same standard output, and error
streams that differ by that line.  When a file before it stops the run, both runs stop there. -/
theorem missing_map_skips_file (extname : String → String)
    (localeCompare : String → String → Int) (dirpath : String) (positionals : List Arg)
    (file : CandidateFile)
    (hpass : passesFilter extname positionals file.filepath = true)
    (hmap : file.mapAccess = false) :
    (∀ state : RunState,
      processFile extname localeCompare dirpath positionals state file =
        .completed { bytesPerFile := state.bytesPerFile
                     webpackViewerData := state.webpackViewerData
                     stdout := state.stdout
                     stderr := state.stderr ++
                       ["Unable to read sourcemap file: " ++ dirpath ++ file.filepath ++
                         ".map\n"] }) ∧
    (∀ (before after : List CandidateFile) (mid : RunState),
      runFrom extname localeCompare dirpath positionals RunState.init before = .completed mid →
      run extname localeCompare dirpath positionals (before ++ file :: after) =
          runFrom extname localeCompare dirpath positionals
            { bytesPerFile := mid.bytesPerFile
              webpackViewerData := mid.webpackViewerData
              stdout := mid.stdout
              stderr := mid.stderr ++
                ["Unable to read sourcemap file: " ++ dirpath ++ file.filepath ++ ".map\n"] }
            after ∧
        run extname localeCompare dirpath positionals (before ++ after) =
          runFrom extname localeCompare dirpath positionals mid after ∧
        (run extname localeCompare dirpath positionals (before ++ file :: after)).SameBut
          ("Unable to read sourcemap file: " ++ dirpath ++ file.filepath ++ ".map\n")
          (run extname localeCompare dirpath positionals (before ++ after))) ∧
    (∀ (before after : List CandidateFile) (stopped : RunState),
      runFrom extname localeCompare dirpath positionals RunState.init before =
        .rejected stopped →
      run extname localeCompare dirpath positionals (before ++ file :: after) =
          .rejected stopped ∧
        run extname localeCompare dirpath positionals (before ++ after) = .rejected stopped) := by
  refine ⟨?_, ?_, ?_⟩
  · intro state
    exact processFile_without_map extname localeCompare dirpath positionals state file hpass hmap
  · intro before after mid hmid
    have h1 : run extname localeCompare dirpath positionals (before ++ file :: after) =
        runFrom extname localeCompare dirpath positionals
          { bytesPerFile := mid.bytesPerFile
            webpackViewerData := mid.webpackViewerData
            stdout := mid.stdout
            stderr := mid.stderr ++
              ["Unable to read sourcemap file: " ++ dirpath ++ file.filepath ++ ".map\n"] }
          after := by
      unfold run
      rw [runFrom_append, hmid]
      simp only [runFrom]
      rw [processFile_without_map extname localeCompare dirpath positionals mid file hpass hmap]
      rfl
    have h2 : run extname localeCompare dirpath positionals (before ++ after) =
        runFrom extname localeCompare dirpath positionals mid after := by
      unfold run
      rw [runFrom_append, hmid]
    refine ⟨h1, h2, ?_⟩
    rw [h1, h2]
    apply runFrom_sameBut
    exact ⟨rfl, rfl, rfl, mid.stderr, [], rfl, by simp⟩
  · intro before after stopped hstop
    unfold run
    rw [runFrom_append, runFrom_append, hstop]
    exact ⟨rfl, rfl⟩

/-- C12 at the run over `app.js`, which has no `app.js.map`, and `good.js`: the warning is
written, `good.js` is processed and pushes its entry, and the run differs from the run over
`good.js` alone by the warning. -/
theorem missing_map_skips_file_witness :
    passesFilter posixExtname [] "app.js" = true ∧
    run posixExtname codePointCompare "out/" []
        [withoutMap "app.js", chunk "good.js" 200 "src/app/x.js" 7] =
      .completed
        { bytesPerFile := [("src/app/x.js", 7)]
          webpackViewerData :=
            [{ label := "good.js", path := "good.js", statSize := 200,
               groups := [.mk "src/" "src/" (some 7)
                 (some [.mk "x.js" "src/app/x.js" (some 7) none])] }]
          stdout := ["Adding out/good.js\n"]
          stderr := ["Unable to read sourcemap file: out/app.js.map\n"] } ∧
    (run posixExtname codePointCompare "out/" []
        [withoutMap "app.js", chunk "good.js" 200 "src/app/x.js" 7]).SameBut
      "Unable to read sourcemap file: out/app.js.map\n"
      (run posixExtname codePointCompare "out/" [] [chunk "good.js" 200 "src/app/x.js" 7]) :=
  ⟨by decide,
    ((missing_map_skips_file posixExtname codePointCompare "out/" [] (withoutMap "app.js")
      (by decide) rfl).2.1 [] [chunk "good.js" 200 "src/app/x.js" 7] RunState.init rfl).1.trans
      (by
        simp only [runFrom, processFile, passesFilter, chunk]
        rfl),
    ((missing_map_skips_file posixExtname codePointCompare "out/" [] (withoutMap "app.js")
      (by decide) rfl).2.1 [] [chunk "good.js" 200 "src/app/x.js" 7] RunState.init rfl).2.2⟩

/-- C13: in `getGroupData` a node with children and no recorded size is not collapsed: it keeps
its label and path, its `groups` are its children finalized, in the order of the `Map`, and its
`statSize` is the sum of theirs, 0 when they all have 0.  A node with children is replaced by its
finalized child exactly when it has one child and the recorded size 0. -/
theorem unsized_node_is_never_collapsed (label path key : String) (child : GroupInfo)
    (rest : GroupMap) :
    finalizeValue (.mk label path none (.cons key child rest)) =
      .mk label path (some (sumStatSize (getGroupData (.cons key child rest))))
        (some (getGroupData (.cons key child rest))) ∧
    getGroupData (.cons key child rest) =
      (GroupMap.values (.cons key child rest)).map finalizeValue ∧
    ((∀ node ∈ getGroupData (.cons key child rest), node.statSize.getD 0 = 0) →
      sumStatSize (getGroupData (.cons key child rest)) = 0) ∧
    (∀ statSize : Option Int,
      finalizeValue (.mk label path statSize (.cons key child rest)) =
        if (GroupMap.cons key child rest).size = 1 ∧ statSize = some 0 then finalizeValue child
        else withGroups label path statSize (getGroupData (.cons key child rest))) := by
  refine ⟨?_, getGroupData_eq_map _, ?_, ?_⟩
  · cases rest with
    | nil => simp [finalizeValue, withGroups, getGroupData]
    | cons k v r => simp [finalizeValue, withGroups, getGroupData]
  · intro h
    rw [sumStatSize_eq_sum]
    apply List.sum_eq_zero
    intro x hx
    obtain ⟨node, hn, rfl⟩ := List.mem_map.mp hx
    exact h node hn
  · intro statSize
    cases rest with
    | nil =>
      by_cases hs : statSize = some 0
      · simp [finalizeValue, GroupMap.size, hs]
      · simp [finalizeValue, GroupMap.size, hs, getGroupData]
    | cons k v r =>
      simp [finalizeValue, GroupMap.size, getGroupData]

/-- C14 (fails on the code): for a path of one piece the call of line 120 takes the piece as a
prefix and leaves an empty remaining path, so the leaf of line 125 has the empty string as label
and the piece followed by a slash as path. -/
theorem single_segment_leaf_has_empty_label (localeCompare : String → String → Int) :
    grouper localeCompare [("**unknown**", 9)] = [.mk "" "**unknown**/" (some 9) none] ∧
    grouper localeCompare [("index.js", 5)] = [.mk "" "index.js/" (some 5) none] :=
  ⟨rfl, rfl⟩

/-- C15: when the file names of the tally (its keys without the leading `../`) are pairwise
distinct, have a slash and do not end with one, the leaves of the forest are the entries of the
tally, one for one: each leaf has the file name as path, the last piece of the key as label and
the bytes as `statSize`. -/
theorem leaves_correspond_to_entries (localeCompare : String → String → Int)
    (bytesPerFile : ByteTally)
    (hdistinct : (bytesPerFile.map fun entry => filename entry.1).Nodup)
    (hslash : ∀ entry ∈ bytesPerFile, '/' ∈ (filename entry.1).data)
    (hend : ∀ entry ∈ bytesPerFile, ¬ ∃ q, filename entry.1 = q ++ "/") :
    List.Perm
      ((leaves (grouper localeCompare bytesPerFile)).map fun node =>
        (node.path, node.label, node.statSize))
      (bytesPerFile.map fun entry => (filename entry.1, lastSegment entry.1, some entry.2)) := by
  have hs := sort_perm localeCompare (fileInfoOf bytesPerFile)
  have hfile : (fileInfoOf bytesPerFile).map FileInfo.file =
      bytesPerFile.map fun entry => filename entry.1 := by
    simp [fileInfoOf]
  have hgood : ∀ info ∈ sort localeCompare (fileInfoOf bytesPerFile),
      '/' ∈ info.file.data ∧ ¬ EndsWithSlash info.file := by
    intro info hi
    have hi2 := hs.mem_iff.mp hi
    obtain ⟨entry, he, rfl⟩ := List.mem_map.mp hi2
    exact ⟨hslash entry he, hend entry he⟩
  have hnodup : ((sort localeCompare (fileInfoOf bytesPerFile)).map FileInfo.file).Nodup := by
    apply (hs.map FileInfo.file).nodup_iff.mpr
    rw [hfile]
    exact hdistinct
  have hfold := foldl_addToGroupInfo_leafData (sort localeCompare (fileInfoOf bytesPerFile))
    .nil trivial hgood hnodup (by simp [GroupMap.leafData])
  have hleaves := getGroupData_leafData
    (fullGroupInfo (sort localeCompare (fileInfoOf bytesPerFile)))
  unfold grouper
  show List.Perm ((leaves _).map GroupNode.data) _
  rw [hleaves]
  unfold fullGroupInfo
  refine hfold.trans ?_
  simp only [GroupMap.leafData, List.nil_append]
  refine (hs.map _).trans ?_
  simp only [fileInfoOf, List.map_map]
  apply List.Perm.of_eq
  apply List.map_congr_left
  intro entry _
  simp [lastSegment_filename]

/-- C15 at the tally `../a/b/x.js: 3`, `a/c/y.js: 4`. -/
theorem leaves_correspond_to_entries_witness :
    List.Perm
      ((leaves (grouper codePointCompare [("../a/b/x.js", 3), ("a/c/y.js", 4)])).map fun node =>
        (node.path, node.label, node.statSize))
      [("a/b/x.js", "x.js", some 3), ("a/c/y.js", "y.js", some 4)] :=
  leaves_correspond_to_entries codePointCompare [("../a/b/x.js", 3), ("a/c/y.js", 4)]
    (by decide) (by decide)
    (fun entry he => not_endsWithSlash _
      ((by decide : ∀ entry ∈ [(("../a/b/x.js" : String), (3 : Int)), ("a/c/y.js", 4)],
        (filename entry.1).data.getLast? ≠ some '/') entry he))

/-- C16 (fails on the code): the keys `../lib/foo.js` and `lib/foo.js` strip to `lib/foo.js` and
their values sum to 30, but the leaf `lib/foo.js` has the 20 bytes of the key inserted last: line
125 sets a new leaf where a leaf of the same path is. -/
theorem leaf_counts_last_colliding_key_only (localeCompare : String → String → Int)
    (h : localeCompare "lib/foo.js" "lib/foo.js" = 0) :
    grouper localeCompare [("../lib/foo.js", 10), ("lib/foo.js", 20)] =
      [.mk "foo.js" "lib/foo.js" (some 20) none] ∧
    keySum [("../lib/foo.js", 10), ("lib/foo.js", 20)] "lib/foo.js" = 30 := by
  have hs : sort localeCompare (fileInfoOf [("../lib/foo.js", 10), ("lib/foo.js", 20)]) =
      [{ file := "lib/foo.js", bytes := 10 }, { file := "lib/foo.js", bytes := 20 }] := by
    show (if localeCompare "lib/foo.js" "lib/foo.js" ≤ 0 then _ else _) = _
    rw [if_pos (le_of_eq h)]
    rfl
  refine ⟨?_, by decide⟩
  unfold grouper
  rw [hs]
  rfl

/-- The statement of C16 on the code, at the comparison by code points. -/
theorem leaf_counts_last_colliding_key_only_witness :
    codePointCompare "lib/foo.js" "lib/foo.js" = 0 ∧
    grouper codePointCompare [("../lib/foo.js", 10), ("lib/foo.js", 20)] =
      [.mk "foo.js" "lib/foo.js" (some 20) none] :=
  ⟨by decide, (leaf_counts_last_colliding_key_only codePointCompare (by decide)).1⟩

/-- C17 (fails on the code): the leaves of the file names `index` and `index.js` are inserted in
the order of the file names, and their paths are `index/` and `index.js/`, the defect of C14;
under a comparison that puts `index.js/` before `index/`, as the one by code points does, the
root list is not in ascending order of the paths. -/
theorem single_segment_leaves_not_ascending (localeCompare : String → String → Int)
    (h1 : localeCompare "index" "index.js" ≤ 0) (h2 : 0 < localeCompare "index/" "index.js/") :
    grouper localeCompare [("index", 1), ("index.js", 2)] =
      [.mk "" "index/" (some 1) none, .mk "" "index.js/" (some 2) none] ∧
    ¬ LeavesAscending localeCompare (grouper localeCompare [("index", 1), ("index.js", 2)]) := by
  have hs : sort localeCompare (fileInfoOf [("index", 1), ("index.js", 2)]) =
      [{ file := "index", bytes := 1 }, { file := "index.js", bytes := 2 }] := by
    show (if localeCompare "index" "index.js" ≤ 0 then _ else _) = _
    rw [if_pos h1]
    rfl
  have hg : grouper localeCompare [("index", 1), ("index.js", 2)] =
      [.mk "" "index/" (some 1) none, .mk "" "index.js/" (some 2) none] := by
    unfold grouper
    rw [hs]
    rfl
  refine ⟨hg, ?_⟩
  rw [hg]
  intro hasc
  have := hasc _ (List.mem_cons_self _ _)
  simp [GroupNode.hasChildren, GroupNode.path] at this
  omega

/-- The statement of C17 on the code, at the comparison by code points. -/
theorem single_segment_leaves_not_ascending_witness :
    codePointCompare "index" "index.js" ≤ 0 ∧ 0 < codePointCompare "index/" "index.js/" ∧
    ¬ LeavesAscending codePointCompare (grouper codePointCompare [("index", 1), ("index.js", 2)]) :=
  ⟨by decide, by decide,
    (single_segment_leaves_not_ascending codePointCompare (by decide) (by decide)).2⟩

end SourcemapBundleAnalyzer
